import Mathlib

/-!
Verification development for the tiny shell `tsh.c` (job control, signal
handling, redirection).  The C data structures and functions are embedded
shallowly: the fixed 16-slot job array becomes a `List Job` of length 16,
`pid_t`/`int` become `Int`, stateful C functions become pure functions that
return the updated table together with their observable effects (printed
text, `kill` system calls issued, the pid handed to `waitfg`).  Fallible
paths of the C code (a `NULL` dereference after a failed `getjobpid`)
return `Option`.
-/

namespace Tsh

/-- `MAXJOBS` from tsh.c: max jobs at any point in time. -/
def MAXJOBS : Nat := 16

/-- `MAXARGS` from tsh.c: max args on a command line. -/
def MAXARGS : Nat := 128

/-- Job states `UNDEF`, `FG`, `BG`, `ST` from tsh.c. -/
inductive JState where
  | UNDEF
  | FG
  | BG
  | ST
deriving DecidableEq, Repr

/-- `struct job_t`: per-job data (pid, jid, state, command line). -/
structure Job where
  pid : Int
  jid : Int
  state : JState
  cmdline : String
deriving DecidableEq, Repr

/-- `clearjob`: the cleared slot (pid 0, jid 0, state UNDEF, empty line). -/
def clearjob : Job := ⟨0, 0, JState.UNDEF, ""⟩

/-- `initjobs`: the initial job list, all 16 slots cleared. -/
def initjobs : List Job := List.replicate MAXJOBS clearjob

/-- Linear scan over the slot array that rewrites the first slot satisfying
`p` using `f`, returning the slot's original contents together with the
updated array (`none` when no slot matches).  This is the common shape of
the in-place pointer updates in tsh.c (`addjob`'s store into the first
empty slot, `deletejob`'s `clearjob`, the `job->state = ...` writes). -/
def updateSlot : List Job → (Job → Bool) → (Job → Job) → Option (Job × List Job)
  | [], _, _ => none
  | j :: rest, p, f =>
    if p j then some (j, f j :: rest)
    else
      match updateSlot rest p f with
      | none => none
      | some (x, r) => some (x, j :: r)

/-- The ascending scan of `freejid`: return the first index `i` (starting
from the given one, for `fuel` steps) whose jid is not taken by a live
entry, and 0 when the scan is exhausted. -/
def freejidFrom (tbl : List Job) : Nat → Nat → Int
  | _, 0 => 0
  | i, Nat.succ fuel =>
    if tbl.any (fun j => j.jid == (i : Int)) then freejidFrom tbl (i + 1) fuel
    else (i : Int)

/-- `freejid`: smallest free job ID in `1..MAXJOBS`, 0 if none.  (The C
code marks `taken[jobs[i].jid]` for each slot with `jid != 0` and then
scans `1..MAXJOBS`; for the scanned values `i ≥ 1` the `jid != 0` filter
is subsumed by the equality test.) -/
def freejid (tbl : List Job) : Int := freejidFrom tbl 1 MAXJOBS

/-- `addjob`: add a job to the job list.  Returns `false` (and the table
unchanged) for `pid < 1`, when no jid is free, or when no slot is empty;
otherwise stores the entry with the smallest free jid in the first empty
slot. -/
def addjob (tbl : List Job) (pid : Int) (state : JState) (cmdline : String) :
    Bool × List Job :=
  if pid < 1 then (false, tbl)
  else
    let free := freejid tbl
    if free == 0 then (false, tbl)
    else
      match updateSlot tbl (fun j => j.pid == 0) (fun _ => ⟨pid, free, state, cmdline⟩) with
      | none => (false, tbl)
      | some (_, t') => (true, t')

/-- `deletejob`: delete the job whose PID = `pid` (first matching slot). -/
def deletejob (tbl : List Job) (pid : Int) : Bool × List Job :=
  if pid < 1 then (false, tbl)
  else
    match updateSlot tbl (fun j => j.pid == pid) (fun _ => clearjob) with
    | none => (false, tbl)
    | some (_, t') => (true, t')

/-- `fgpid`: PID of the current foreground job, 0 if no such job. -/
def fgpid (tbl : List Job) : Int :=
  match tbl.find? (fun j => j.state == JState.FG) with
  | some j => j.pid
  | none => 0

/-- `getjobpid`: find a job (by PID) on the job list. -/
def getjobpid (tbl : List Job) (pid : Int) : Option Job :=
  if pid < 1 then none else tbl.find? (fun j => j.pid == pid)

/-- `getjobjid`: find a job (by JID) on the job list. -/
def getjobjid (tbl : List Job) (jid : Int) : Option Job :=
  if jid < 1 then none else tbl.find? (fun j => j.jid == jid)

/-- `sigchld_handler`: reap all currently-available terminated children
(the `waitpid(-1, NULL, WNOHANG)` loop), deleting each from the table.
The list argument is the pids the kernel reports, in reap order. -/
def sigchld_reap (tbl : List Job) (terminated : List Int) : List Job :=
  terminated.foldl (fun t p => (deletejob t p).2) tbl

/-- Number of slots in state `FG`. -/
def countFG (tbl : List Job) : Nat := tbl.countP (fun j => j.state == JState.FG)

/-- Number of live (occupied) slots, i.e. slots with `pid != 0`. -/
def countLive (tbl : List Job) : Nat := tbl.countP (fun j => j.pid != 0)

/-- jids of the live entries, in slot order (the values the C code marks
as taken: slots with `jid != 0`). -/
def liveJids (tbl : List Job) : List Int :=
  (tbl.filter (fun j => j.jid != 0)).map (fun j => j.jid)

/-- pids of the live entries, in slot order. -/
def livePids (tbl : List Job) : List Int :=
  (tbl.filter (fun j => j.pid != 0)).map (fun j => j.pid)

/-- Signals the shell sends with `kill`. -/
inductive Sig where
  | SIGINT
  | SIGTSTP
  | SIGCONT
deriving DecidableEq, Repr

/-- Observable result of a signal handler: the table afterwards, the
`kill(target, sig)` calls it issued (negative target = process group),
and the text it printed. -/
structure SigRes where
  table : List Job
  kills : List (Int × Sig)
  output : String
deriving DecidableEq, Repr

/-- `sigint_handler`: if a foreground job exists, `kill(-fg, SIGINT)`
(whole process group) and print the termination report; the table itself
is not modified (removal happens later in `sigchld_handler`).  `none`
models the `NULL` dereference when `getjobpid` finds no job. -/
def sigint_handler (tbl : List Job) : Option SigRes :=
  let fg := fgpid tbl
  if fg == 0 then some ⟨tbl, [], ""⟩
  else
    match getjobpid tbl fg with
    | none => none
    | some j =>
        some ⟨tbl, [(-fg, Sig.SIGINT)],
          "Job [" ++ toString j.jid ++ "] (" ++ toString j.pid ++
            ") terminated by signal 2\n"⟩

/-- `sigtstp_handler`: if a foreground job exists, `kill(fg, SIGTSTP)`
(note: the positive pid, i.e. the leader process only) and set that job's
state to `ST` in place.  `none` models the `NULL` dereference when
`getjobpid` finds no job. -/
def sigtstp_handler (tbl : List Job) : Option SigRes :=
  let fg := fgpid tbl
  if fg == 0 then some ⟨tbl, [], ""⟩
  else if fg < 1 then none
  else
    match updateSlot tbl (fun j => j.pid == fg) (fun j => { j with state := JState.ST }) with
    | none => none
    | some (_, t') => some ⟨t', [(fg, Sig.SIGTSTP)], ""⟩

/-- The table produced by a `sigtstp` event in `shellStep` (the handler's
table, with the unreachable crash branch defaulting to no change). -/
def sigtstpTbl (tbl : List Job) : List Job :=
  match sigtstp_handler tbl with
  | some r => r.table
  | none => tbl

/-- The `bg`/`fg` command selector. -/
inductive BgFgCmd where
  | bg
  | fg
deriving DecidableEq, Repr

/-- The already-parsed target of `bg`/`fg`: a bare integer (pid) or a
`%`-prefixed integer (jid), as split off by `do_bgfg` from `argv[1]`. -/
inductive Target where
  | byPid (pid : Int)
  | byJid (jid : Int)
deriving DecidableEq, Repr

/-- How `argv[1]` reads for a target (used in the "No such job" text). -/
def targetStr : Target → String
  | Target.byPid p => toString p
  | Target.byJid n => "%" ++ toString n

/-- The slot predicate `do_bgfg` resolves its target with
(`getjobpid` / `getjobjid`). -/
def tgtPred : Target → Job → Bool
  | Target.byPid p, j => j.pid == p
  | Target.byJid n, j => j.jid == n

/-- The `< 1` guards of `getjobpid` / `getjobjid`. -/
def tgtValid : Target → Bool
  | Target.byPid p => decide (1 ≤ p)
  | Target.byJid n => decide (1 ≤ n)

/-- `resolveTarget`: the job `do_bgfg` finds for a target, if any. -/
def resolveTarget (tbl : List Job) : Target → Option Job
  | Target.byPid p => getjobpid tbl p
  | Target.byJid n => getjobjid tbl n

/-- Observable result of `do_bgfg`: table, printed text, kill calls, and
the pid passed to `waitfg` (if it was called). -/
structure BRes where
  table : List Job
  output : String
  kills : List (Int × Sig)
  waited : Option Int
deriving DecidableEq, Repr

/-- `do_bgfg`: execute the builtin `bg` and `fg` commands.  Unresolved
targets print "No such job" and do nothing else.  `bg` sets the job's
state to `BG`, sends `SIGCONT` to its process group and prints its status
line.  `fg` sets the job's state to `FG`, then reads `current_pid :=
fgpid(jobs)` (after that update) and, when it is nonzero, sends `SIGCONT`
to the job's process group and calls `waitfg(current_pid)`. -/
def do_bgfg (tbl : List Job) (cmd : BgFgCmd) (tgt : Target) : BRes :=
  let newState := match cmd with | BgFgCmd.bg => JState.BG | BgFgCmd.fg => JState.FG
  if tgtValid tgt = false then ⟨tbl, targetStr tgt ++ ": No such job\n", [], none⟩
  else
    match updateSlot tbl (tgtPred tgt) (fun j => { j with state := newState }) with
    | none => ⟨tbl, targetStr tgt ++ ": No such job\n", [], none⟩
    | some (jb, t') =>
      match cmd with
      | BgFgCmd.bg =>
          ⟨t', "[" ++ toString jb.jid ++ "] (" ++ toString jb.pid ++ ") " ++ jb.cmdline,
            [(-jb.pid, Sig.SIGCONT)], none⟩
      | BgFgCmd.fg =>
          let current := fgpid t'
          if current == 0 then ⟨t', "", [], none⟩
          else ⟨t', "", [(-jb.pid, Sig.SIGCONT)], some current⟩

/-- Where the shell's main control flow stands: at the prompt, blocked in
`waitfg` on a pid, or exited (`unix_error` path). -/
inductive Mode where
  | prompt
  | waitingFg (pid : Int)
  | halted
deriving DecidableEq, Repr

/-- The background-job announcement `eval` prints on launch:
`printf("[%d] (%d) ", jid, pid); printf("Running "); printf("%s", cmdline)`. -/
def bgAnnounce (jid pid : Int) (cmdline : String) : String :=
  "[" ++ toString jid ++ "] (" ++ toString pid ++ ") " ++ "Running " ++ cmdline

/-- The announcement format the spec states: `[<jid>] (<pid>) <command_line>`
(for comparison with `bgAnnounce`). -/
def specBgAnnounce (jid pid : Int) (cmdline : String) : String :=
  "[" ++ toString jid ++ "] (" ++ toString pid ++ ") " ++ cmdline

/-- Observable result of the parent side of `eval` for an external
command: table, resulting control-flow mode, printed text. -/
structure ERes where
  table : List Job
  mode : Mode
  output : String
deriving DecidableEq, Repr

/-- `eval`'s background test: `strcmp(argv[argc - 1], "&") == 0`. -/
def bgRequested (argv : List String) : Bool := argv.getLast? == some "&"

/-- Parent side of `eval` for a non-builtin command: decide FG/BG from a
trailing `&` token, register the child `pid` with `addjob` (failure is
`unix_error`, i.e. the shell halts), then either print the background
announcement and return to the prompt, or block in `waitfg pid`. -/
def evalExternal (tbl : List Job) (pid : Int) (argv : List String) (cmdline : String) :
    ERes :=
  match addjob tbl pid (if bgRequested argv then JState.BG else JState.FG) cmdline with
  | (false, t) => ⟨t, Mode.halted, ""⟩
  | (true, t') =>
    if bgRequested argv then
      match getjobpid t' pid with
      | some j => ⟨t', Mode.prompt, bgAnnounce j.jid j.pid j.cmdline⟩
      | none => ⟨t', Mode.prompt, ""⟩
    else ⟨t', Mode.waitingFg pid, ""⟩

/-- Shell state: job table plus where the main control flow stands. -/
structure Shell where
  tbl : List Job
  mode : Mode
deriving DecidableEq, Repr

/-- Events that drive the shell: a routed external command (with the pid
`fork` returned), a routed `bg`/`fg` builtin, the asynchronous signal
handlers, and the return of `waitfg` (enabled only when its pid is no
longer the foreground pid).  Commands can only happen at the prompt;
handlers can fire at the prompt or while `waitfg` blocks. -/
inductive SEvent where
  | runExternal (pid : Int) (argv : List String) (cmdline : String)
  | cmdBgFg (cmd : BgFgCmd) (tgt : Target)
  | sigchld (pids : List Int)
  | sigint
  | sigtstp
  | waitReturn

/-- One observable step of the shell. -/
def shellStep (s : Shell) (e : SEvent) : Shell :=
  match s.mode with
  | Mode.halted => s
  | Mode.prompt =>
    match e with
    | SEvent.runExternal pid argv cmdline =>
        if argv.isEmpty then s
        else
          let r := evalExternal s.tbl pid argv cmdline
          ⟨r.table, r.mode⟩
    | SEvent.cmdBgFg cmd tgt =>
        let r := do_bgfg s.tbl cmd tgt
        ⟨r.table, match r.waited with | some w => Mode.waitingFg w | none => Mode.prompt⟩
    | SEvent.sigchld ps => ⟨sigchld_reap s.tbl ps, Mode.prompt⟩
    | SEvent.sigint => s
    | SEvent.sigtstp => ⟨sigtstpTbl s.tbl, Mode.prompt⟩
    | SEvent.waitReturn => s
  | Mode.waitingFg p =>
    match e with
    | SEvent.sigchld ps => ⟨sigchld_reap s.tbl ps, Mode.waitingFg p⟩
    | SEvent.sigint => s
    | SEvent.sigtstp => ⟨sigtstpTbl s.tbl, Mode.waitingFg p⟩
    | SEvent.waitReturn => if fgpid s.tbl == p then s else ⟨s.tbl, Mode.prompt⟩
    | _ => s

/-- The initial shell state and everything reachable from it. -/
def initShell : Shell := ⟨initjobs, Mode.prompt⟩

/-- Reachable shell states: the initial state, closed under steps. -/
inductive Reachable : Shell → Prop where
  | init : Reachable initShell
  | step : ∀ {s : Shell} (e : SEvent), Reachable s → Reachable (shellStep s e)

/-! ### Basic lemmas about the slot scan -/

theorem updateSlot_some {p : Job → Bool} {f : Job → Job} {tbl t' : List Job} {j : Job}
    (h : updateSlot tbl p f = some (j, t')) :
    ∃ l r, tbl = l ++ j :: r ∧ t' = l ++ f j :: r ∧
      (∀ x ∈ l, p x = false) ∧ p j = true := by
  induction tbl generalizing t' with
  | nil => simp [updateSlot] at h
  | cons a rest ih =>
    rw [updateSlot] at h
    by_cases hp : p a
    · rw [if_pos hp] at h
      obtain ⟨rfl, rfl⟩ : a = j ∧ f a :: rest = t' := by
        have h' := Option.some.inj h
        exact ⟨congrArg Prod.fst h', congrArg Prod.snd h'⟩
      exact ⟨[], rest, rfl, rfl, by simp, hp⟩
    · have hpa : p a = false := by revert hp; cases p a <;> simp
      rw [if_neg hp] at h
      cases hrec : updateSlot rest p f with
      | none => rw [hrec] at h; exact absurd h (by simp)
      | some pr =>
        obtain ⟨x, r⟩ := pr
        rw [hrec] at h
        obtain ⟨rfl, rfl⟩ : x = j ∧ a :: r = t' := by
          have h' := Option.some.inj h
          exact ⟨congrArg Prod.fst h', congrArg Prod.snd h'⟩
        obtain ⟨l, rr, rfl, rfl, hl, hx⟩ := ih hrec
        exact ⟨a :: l, rr, rfl, rfl, by
          intro y hy
          rcases List.mem_cons.mp hy with rfl | hy
          · exact hpa
          · exact hl y hy, hx⟩

theorem updateSlot_none {p : Job → Bool} {f : Job → Job} {tbl : List Job} :
    updateSlot tbl p f = none ↔ ∀ x ∈ tbl, p x = false := by
  induction tbl with
  | nil => simp [updateSlot]
  | cons a rest ih =>
    rw [updateSlot]
    by_cases hp : p a
    · rw [if_pos hp]
      constructor
      · intro hcontr; cases hcontr
      · intro hall
        exact absurd (hall a (by simp)) (by simp [hp])
    · have hpa : p a = false := by revert hp; cases p a <;> simp
      rw [if_neg hp]
      cases hrec : updateSlot rest p f with
      | none =>
        simp only [true_iff]
        intro x hx
        rcases List.mem_cons.mp hx with rfl | hx
        · exact hpa
        · exact ih.mp hrec x hx
      | some pr =>
        constructor
        · intro hcontr; cases hcontr
        · intro hall
          have : updateSlot rest p f = none :=
            ih.mpr (fun x hx => hall x (List.mem_cons_of_mem _ hx))
          rw [this] at hrec; cases hrec

/-- `find?` over an initial op-free segment finds the first hit. -/
theorem find?_append_first {q : Job → Bool} {l r : List Job} {j : Job}
    (hl : ∀ x ∈ l, q x = false) (hj : q j = true) :
    (l ++ j :: r).find? q = some j := by
  induction l with
  | nil => simp [List.find?, hj]
  | cons a rest ih =>
    have ha : q a = false := hl a (by simp)
    simp only [List.cons_append, List.find?, ha]
    exact ih (fun x hx => hl x (List.mem_cons_of_mem _ hx))

theorem countFG_eq_zero {tbl : List Job} :
    countFG tbl = 0 ↔ ∀ j ∈ tbl, j.state ≠ JState.FG := by
  unfold countFG
  rw [List.countP_eq_zero]
  constructor
  · intro h j hj hst
    exact absurd (by simp [hst] : (j.state == JState.FG) = true) (h j hj)
  · intro h j hj
    simp only [beq_iff_eq]
    exact fun hst => h j hj hst

theorem fgpid_of_no_fg {tbl : List Job} (h : ∀ j ∈ tbl, j.state ≠ JState.FG) :
    fgpid tbl = 0 := by
  unfold fgpid
  cases hf : tbl.find? (fun j => j.state == JState.FG) with
  | none => rfl
  | some j =>
    have hmem := List.mem_of_find?_eq_some hf
    have hst := List.find?_some hf
    simp only [beq_iff_eq] at hst
    exact absurd hst (h j hmem)

theorem fgpid_of_fg_exists {tbl : List Job} (h : countFG tbl ≠ 0) :
    ∃ j ∈ tbl, j.state = JState.FG ∧ fgpid tbl = j.pid := by
  have hex : ∃ j ∈ tbl, j.state = JState.FG := by
    by_contra hc
    push_neg at hc
    exact h (countFG_eq_zero.mpr hc)
  obtain ⟨j, hj, hst⟩ := hex
  have : (tbl.find? (fun j => j.state == JState.FG)).isSome := by
    rw [List.find?_isSome]
    exact ⟨j, hj, by simp [hst]⟩
  cases hf : tbl.find? (fun j => j.state == JState.FG) with
  | none => rw [hf] at this; cases this
  | some j' =>
    refine ⟨j', List.mem_of_find?_eq_some hf, ?_, ?_⟩
    · have := List.find?_some hf
      simpa using this
    · unfold fgpid
      rw [hf]

theorem countFG_append_cons (l r : List Job) (j : Job) :
    countFG (l ++ j :: r) =
      countFG l + countFG r + (if j.state = JState.FG then 1 else 0) := by
  unfold countFG
  rw [List.countP_append, List.countP_cons]
  by_cases h : j.state = JState.FG
  · simp only [h, if_pos rfl]
    simp
    omega
  · have : (j.state == JState.FG) = false := by
      cases hs : j.state <;> simp_all
    rw [this, if_neg h]
    simp

/-! ### Well-formedness of the job table -/

/-- A slot is either cleared or live (positive pid, positive jid, a real
state). -/
def WFJob (j : Job) : Prop :=
  (j.pid = 0 ∧ j.jid = 0 ∧ j.state = JState.UNDEF) ∨
  (1 ≤ j.pid ∧ 1 ≤ j.jid ∧ j.state ≠ JState.UNDEF)

def WFTbl (tbl : List Job) : Prop := ∀ j ∈ tbl, WFJob j

theorem wf_clearjob : WFJob clearjob := Or.inl ⟨rfl, rfl, rfl⟩

theorem WFTbl_append_cons {l r : List Job} {j j' : Job} (h : WFTbl (l ++ j :: r))
    (h' : WFJob j') : WFTbl (l ++ j' :: r) := by
  intro x hx
  rcases List.mem_append.mp hx with hx | hx
  · exact h x (List.mem_append.mpr (Or.inl hx))
  · rcases List.mem_cons.mp hx with rfl | hx
    · exact h'
    · exact h x (List.mem_append.mpr (Or.inr (List.mem_cons_of_mem _ hx)))

theorem freejidFrom_nonneg (tbl : List Job) : ∀ fuel i, 0 ≤ freejidFrom tbl i fuel := by
  intro fuel
  induction fuel with
  | zero => intro i; simp [freejidFrom]
  | succ n ih =>
    intro i
    rw [freejidFrom]
    by_cases h : tbl.any (fun j => j.jid == (i : Int))
    · rw [if_pos h]; exact ih (i + 1)
    · rw [if_neg h]; exact Int.ofNat_nonneg i

/-- Characterization of a successful `addjob`. -/
theorem addjob_success {tbl t' : List Job} {pid : Int} {st : JState} {cmd : String}
    (h : addjob tbl pid st cmd = (true, t')) :
    1 ≤ pid ∧ 1 ≤ freejid tbl ∧
      ∃ l j0 r, tbl = l ++ j0 :: r ∧ j0.pid = 0 ∧
        (∀ x ∈ l, (x.pid == (0 : Int)) = false) ∧
        t' = l ++ (⟨pid, freejid tbl, st, cmd⟩ : Job) :: r := by
  unfold addjob at h
  by_cases hpid : pid < 1
  · rw [if_pos hpid] at h; cases h
  · rw [if_neg hpid] at h
    by_cases hfree : freejid tbl == 0
    · simp only [hfree, if_pos] at h; cases h
    · simp only [hfree] at h
      rw [if_neg (by simp : ¬(false = true))] at h
      cases hup : updateSlot tbl (fun j => j.pid == 0) (fun _ => ⟨pid, freejid tbl, st, cmd⟩) with
      | none => rw [hup] at h; cases h
      | some pr =>
        obtain ⟨j0, tt⟩ := pr
        rw [hup] at h
        have ht : tt = t' := (Prod.mk.inj h).2
        obtain ⟨l, r, htbl, htt, hl, hj0⟩ := updateSlot_some hup
        refine ⟨by omega, ?_, l, j0, r, htbl, by simpa using hj0, hl, ?_⟩
        · have h0 : freejid tbl ≠ 0 := fun hc => hfree (by simp [hc])
          have := freejidFrom_nonneg tbl MAXJOBS 1
          unfold freejid at h0 ⊢
          omega
        · rw [← ht, htt]

/-- A failing `addjob` stores nothing. -/
theorem addjob_fail {tbl t' : List Job} {pid : Int} {st : JState} {cmd : String}
    (h : addjob tbl pid st cmd = (false, t')) : t' = tbl := by
  unfold addjob at h
  by_cases hpid : pid < 1
  · rw [if_pos hpid] at h; exact ((Prod.mk.inj h).2).symm
  · rw [if_neg hpid] at h
    by_cases hfree : freejid tbl == 0
    · rw [if_pos hfree] at h; exact ((Prod.mk.inj h).2).symm
    · rw [if_neg hfree] at h
      cases hup : updateSlot tbl (fun j => j.pid == 0) (fun _ => ⟨pid, freejid tbl, st, cmd⟩) with
      | none => rw [hup] at h; exact ((Prod.mk.inj h).2).symm
      | some pr => rw [hup] at h; cases (Prod.mk.inj h).1

/-- `deletejob` either leaves the table unchanged or clears one slot. -/
theorem deletejob_cases (tbl : List Job) (pid : Int) :
    (deletejob tbl pid).2 = tbl ∨
      ∃ l j0 r, tbl = l ++ j0 :: r ∧ (deletejob tbl pid).2 = l ++ clearjob :: r := by
  unfold deletejob
  by_cases hpid : pid < 1
  · rw [if_pos hpid]; exact Or.inl rfl
  · rw [if_neg hpid]
    cases hup : updateSlot tbl (fun j => j.pid == pid) (fun _ => clearjob) with
    | none => exact Or.inl rfl
    | some pr =>
      obtain ⟨j0, tt⟩ := pr
      obtain ⟨l, r, htbl, htt, _, _⟩ := updateSlot_some hup
      exact Or.inr ⟨l, j0, r, htbl, htt⟩

/-- Replacing one slot by a non-foreground slot cannot increase the
foreground count. -/
theorem countFG_replace_le {l r : List Job} {j j' : Job} (h : j'.state ≠ JState.FG) :
    countFG (l ++ j' :: r) ≤ countFG (l ++ j :: r) := by
  rw [countFG_append_cons, countFG_append_cons, if_neg h]
  by_cases hj : j.state = JState.FG
  · rw [if_pos hj]; omega
  · rw [if_neg hj]

/-- Replacing one slot by a non-foreground slot preserves "every
foreground entry has pid `q`". -/
theorem fgprop_replace {l r : List Job} {j j' : Job} {q : Int}
    (h : ∀ x ∈ l ++ j :: r, x.state = JState.FG → x.pid = q)
    (h' : j'.state ≠ JState.FG) :
    ∀ x ∈ l ++ j' :: r, x.state = JState.FG → x.pid = q := by
  intro x hx hst
  rcases List.mem_append.mp hx with hx | hx
  · exact h x (List.mem_append.mpr (Or.inl hx)) hst
  · rcases List.mem_cons.mp hx with rfl | hx
    · exact absurd hst h'
    · exact h x (List.mem_append.mpr (Or.inr (List.mem_cons_of_mem _ hx))) hst

/-- `sigtstp` either leaves the table unchanged or rewrites one slot's
state to `ST`. -/
theorem sigtstpTbl_cases (tbl : List Job) :
    sigtstpTbl tbl = tbl ∨
      ∃ l j0 r, tbl = l ++ j0 :: r ∧
        sigtstpTbl tbl = l ++ ({ j0 with state := JState.ST } : Job) :: r ∧ 1 ≤ j0.pid := by
  unfold sigtstpTbl sigtstp_handler
  by_cases h0 : fgpid tbl == 0
  · rw [if_pos h0]; exact Or.inl rfl
  · rw [if_neg h0]
    by_cases h1 : fgpid tbl < 1
    · rw [if_pos h1]; exact Or.inl rfl
    · rw [if_neg h1]
      cases hup : updateSlot tbl (fun j => j.pid == fgpid tbl)
          (fun j => { j with state := JState.ST }) with
      | none => exact Or.inl rfl
      | some pr =>
        obtain ⟨j0, tt⟩ := pr
        obtain ⟨l, r, htbl, htt, _, hj0⟩ := updateSlot_some hup
        refine Or.inr ⟨l, j0, r, htbl, htt, ?_⟩
        have : j0.pid = fgpid tbl := by simpa using hj0
        omega

/-- `sigchld_reap` preserves any property closed under `deletejob`. -/
theorem sigchld_reap_ind {P : List Job → Prop}
    (hdel : ∀ tbl pid, P tbl → P (deletejob tbl pid).2) :
    ∀ (ps : List Int) (tbl : List Job), P tbl → P (sigchld_reap tbl ps) := by
  intro ps
  induction ps with
  | nil => intro tbl h; exact h
  | cons p rest ih =>
    intro tbl h
    exact ih _ (hdel tbl p h)

theorem deletejob_wf {tbl : List Job} (pid : Int) (h : WFTbl tbl) :
    WFTbl (deletejob tbl pid).2 := by
  rcases deletejob_cases tbl pid with heq | ⟨l, j0, r, htbl, heq⟩
  · rw [heq]; exact h
  · rw [heq]; exact WFTbl_append_cons (htbl ▸ h) wf_clearjob

theorem deletejob_countFG_le (tbl : List Job) (pid : Int) :
    countFG (deletejob tbl pid).2 ≤ countFG tbl := by
  rcases deletejob_cases tbl pid with heq | ⟨l, j0, r, htbl, heq⟩
  · rw [heq]
  · rw [heq, htbl]
    exact countFG_replace_le (by intro hc; cases hc)

theorem deletejob_fgprop {tbl : List Job} {q : Int} (pid : Int)
    (h : ∀ j ∈ tbl, j.state = JState.FG → j.pid = q) :
    ∀ j ∈ (deletejob tbl pid).2, j.state = JState.FG → j.pid = q := by
  rcases deletejob_cases tbl pid with heq | ⟨l, j0, r, htbl, heq⟩
  · rw [heq]; exact h
  · rw [heq]
    exact fgprop_replace (htbl ▸ h) (by intro hc; cases hc)

theorem sigtstpTbl_wf {tbl : List Job} (h : WFTbl tbl) : WFTbl (sigtstpTbl tbl) := by
  rcases sigtstpTbl_cases tbl with heq | ⟨l, j0, r, htbl, heq, hpid⟩
  · rw [heq]; exact h
  · rw [heq]
    refine WFTbl_append_cons (htbl ▸ h) ?_
    have hj0 : WFJob j0 := (htbl ▸ h) j0 (by simp)
    rcases hj0 with ⟨hp, _, _⟩ | ⟨_, hjid, _⟩
    · omega
    · exact Or.inr ⟨hpid, hjid, by intro hc; cases hc⟩

theorem sigtstpTbl_countFG_le (tbl : List Job) :
    countFG (sigtstpTbl tbl) ≤ countFG tbl := by
  rcases sigtstpTbl_cases tbl with heq | ⟨l, j0, r, htbl, heq, _⟩
  · rw [heq]
  · rw [heq, htbl]
    exact countFG_replace_le (by intro hc; cases hc)

theorem sigtstpTbl_fgprop {tbl : List Job} {q : Int}
    (h : ∀ j ∈ tbl, j.state = JState.FG → j.pid = q) :
    ∀ j ∈ sigtstpTbl tbl, j.state = JState.FG → j.pid = q := by
  rcases sigtstpTbl_cases tbl with heq | ⟨l, j0, r, htbl, heq, _⟩
  · rw [heq]; exact h
  · rw [heq]
    exact fgprop_replace (htbl ▸ h) (by intro hc; cases hc)

theorem countFG_zero_parts {l r : List Job} {j : Job} (h : countFG (l ++ j :: r) = 0) :
    countFG l = 0 ∧ countFG r = 0 ∧ j.state ≠ JState.FG := by
  rw [countFG_append_cons] at h
  by_cases hj : j.state = JState.FG
  · rw [if_pos hj] at h; omega
  · rw [if_neg hj] at h; exact ⟨by omega, by omega, hj⟩

/-- A live target resolved by `do_bgfg` has a positive pid. -/
theorem tgt_live_pid {tbl : List Job} {tgt : Target} {jb : Job}
    (hwf : WFTbl tbl) (hv : tgtValid tgt = true) (hmem : jb ∈ tbl)
    (hp : tgtPred tgt jb = true) : 1 ≤ jb.pid ∧ 1 ≤ jb.jid := by
  have hjb := hwf jb hmem
  cases tgt with
  | byPid p =>
    have h1 : (1 : Int) ≤ p := by simpa [tgtValid] using hv
    have h2 : jb.pid = p := by simpa [tgtPred] using hp
    rcases hjb with ⟨hp0, _, _⟩ | ⟨_, hjid, _⟩
    · omega
    · exact ⟨by omega, hjid⟩
  | byJid n =>
    have h1 : (1 : Int) ≤ n := by simpa [tgtValid] using hv
    have h2 : jb.jid = n := by simpa [tgtPred] using hp
    rcases hjb with ⟨_, hj0, _⟩ | ⟨hpid, hjid, _⟩
    · omega
    · exact ⟨hpid, hjid⟩

/-! ### The global foreground invariant (C1) -/

/-- Invariant of the shell transition system: the table is well formed, at
a prompt (or after a fatal exit) no entry is foreground, and while the
main flow blocks in `waitfg p` at most one entry is foreground and any
foreground entry has pid `p`. -/
def Inv (s : Shell) : Prop :=
  WFTbl s.tbl ∧
  (s.mode = Mode.prompt → countFG s.tbl = 0) ∧
  (s.mode = Mode.halted → countFG s.tbl = 0) ∧
  (∀ p, s.mode = Mode.waitingFg p →
     countFG s.tbl ≤ 1 ∧ ∀ j ∈ s.tbl, j.state = JState.FG → j.pid = p)

theorem inv_mk_prompt {tbl : List Job} (hwf : WFTbl tbl) (h0 : countFG tbl = 0) :
    Inv ⟨tbl, Mode.prompt⟩ := by
  refine ⟨hwf, ?_, ?_, ?_⟩
  · intro _; exact h0
  · intro h; cases h
  · intro _ h; cases h

theorem inv_mk_halted {tbl : List Job} (hwf : WFTbl tbl) (h0 : countFG tbl = 0) :
    Inv ⟨tbl, Mode.halted⟩ := by
  refine ⟨hwf, ?_, ?_, ?_⟩
  · intro h; cases h
  · intro _; exact h0
  · intro _ h; cases h

theorem inv_mk_waiting {tbl : List Job} {p : Int} (hwf : WFTbl tbl)
    (h1 : countFG tbl ≤ 1) (h2 : ∀ j ∈ tbl, j.state = JState.FG → j.pid = p) :
    Inv ⟨tbl, Mode.waitingFg p⟩ := by
  refine ⟨hwf, ?_, ?_, ?_⟩
  · intro h; cases h
  · intro h; cases h
  · intro q h
    obtain rfl : p = q := by cases h; rfl
    exact ⟨h1, h2⟩

theorem inv_init : Inv initShell := by
  refine inv_mk_prompt ?_ (by decide)
  intro j hj
  have : j = clearjob := List.eq_of_mem_replicate hj
  rw [this]; exact wf_clearjob

theorem inv_step (s : Shell) (e : SEvent) (hs : Inv s) : Inv (shellStep s e) := by
  obtain ⟨tbl, mode⟩ := s
  obtain ⟨hwf, hprompt, hhalt, hwait⟩ := hs
  cases mode with
  | halted => exact ⟨hwf, hprompt, hhalt, hwait⟩
  | prompt =>
    have hfg0 : countFG tbl = 0 := hprompt rfl
    cases e with
    | sigint => exact ⟨hwf, hprompt, hhalt, hwait⟩
    | waitReturn => exact ⟨hwf, hprompt, hhalt, hwait⟩
    | sigchld ps =>
      refine inv_mk_prompt ?_ ?_
      · exact sigchld_reap_ind (fun t pid h => deletejob_wf pid h) ps tbl hwf
      · exact sigchld_reap_ind (P := fun t => countFG t = 0)
          (fun t pid h => Nat.le_antisymm (h ▸ deletejob_countFG_le t pid) (Nat.zero_le _))
          ps tbl hfg0
    | sigtstp =>
      refine inv_mk_prompt (sigtstpTbl_wf hwf) ?_
      show countFG (sigtstpTbl tbl) = 0
      have := sigtstpTbl_countFG_le tbl
      omega
    | runExternal pid argv cmdline =>
      show Inv (shellStep ⟨tbl, Mode.prompt⟩ (SEvent.runExternal pid argv cmdline))
      by_cases hemp : argv.isEmpty
      · simp only [shellStep, hemp, if_pos]
        exact ⟨hwf, hprompt, hhalt, hwait⟩
      · have hemp' : argv.isEmpty = false := by revert hemp; cases argv.isEmpty <;> simp
        simp only [shellStep, hemp', Bool.false_eq_true, if_neg, not_false_eq_true]
        by_cases hlast : bgRequested argv
        · -- background job
          simp only [evalExternal, hlast, if_pos]
          cases haj : addjob tbl pid JState.BG cmdline with
          | mk ok t2 =>
            cases ok with
            | false =>
              have ht2 : t2 = tbl := addjob_fail haj
              subst ht2
              exact inv_mk_halted hwf hfg0
            | true =>
              obtain ⟨hpid, hfree, l, j0, r, htbl, hj0pid, _, ht2⟩ := addjob_success haj
              have hwf2 : WFTbl t2 := by
                rw [ht2]
                exact WFTbl_append_cons (htbl ▸ hwf)
                  (Or.inr ⟨hpid, hfree, by intro hc; cases hc⟩)
              have hcnt2 : countFG t2 = 0 := by
                obtain ⟨hl0, hr0, _⟩ := countFG_zero_parts (htbl ▸ hfg0)
                rw [ht2, countFG_append_cons, if_neg (by intro hc; cases hc)]
                omega
              simp only
              cases hget : getjobpid t2 pid with
              | none => simp only; exact inv_mk_prompt hwf2 hcnt2
              | some j => simp only; exact inv_mk_prompt hwf2 hcnt2
        · -- foreground job
          have hlast' : bgRequested argv = false := by
            revert hlast; cases bgRequested argv <;> simp
          simp only [evalExternal, hlast', Bool.false_eq_true, if_neg, not_false_eq_true]
          cases haj : addjob tbl pid JState.FG cmdline with
          | mk ok t2 =>
            cases ok with
            | false =>
              have ht2 : t2 = tbl := addjob_fail haj
              subst ht2
              exact inv_mk_halted hwf hfg0
            | true =>
              obtain ⟨hpid, hfree, l, j0, r, htbl, hj0pid, _, ht2⟩ := addjob_success haj
              obtain ⟨hl0, hr0, _⟩ := countFG_zero_parts (htbl ▸ hfg0)
              have hwf2 : WFTbl t2 := by
                rw [ht2]
                exact WFTbl_append_cons (htbl ▸ hwf)
                  (Or.inr ⟨hpid, hfree, by intro hc; cases hc⟩)
              simp only
              refine inv_mk_waiting hwf2 ?_ ?_
              · rw [ht2, countFG_append_cons, if_pos rfl]
                omega
              · intro x hx hst
                rw [ht2] at hx
                rcases List.mem_append.mp hx with hx | hx
                · exact absurd hst (countFG_eq_zero.mp hl0 x hx)
                · rcases List.mem_cons.mp hx with rfl | hx
                  · rfl
                  · exact absurd hst (countFG_eq_zero.mp hr0 x hx)
    | cmdBgFg cmd tgt =>
      simp only [shellStep]
      by_cases hv : tgtValid tgt
      · simp only [do_bgfg, hv]
        rw [if_neg (by simp [hv])]
        cases hup : updateSlot tbl (tgtPred tgt)
            (fun j => { j with state :=
              match cmd with | BgFgCmd.bg => JState.BG | BgFgCmd.fg => JState.FG }) with
        | none => exact inv_mk_prompt hwf hfg0
        | some pr =>
          obtain ⟨jb, t'⟩ := pr
          obtain ⟨l, r, htbl, ht', hl, hpj⟩ := updateSlot_some hup
          obtain ⟨hl0, hr0, _⟩ := countFG_zero_parts (htbl ▸ hfg0)
          obtain ⟨hjpid, hjjid⟩ := tgt_live_pid hwf hv (htbl ▸ List.mem_append.mpr
            (Or.inr (List.mem_cons_self _ _))) hpj
          cases cmd with
          | bg =>
            refine inv_mk_prompt ?_ ?_
            · rw [ht']
              exact WFTbl_append_cons (htbl ▸ hwf)
                (Or.inr ⟨hjpid, hjjid, by intro hc; cases hc⟩)
            · rw [ht', countFG_append_cons, if_neg (by intro hc; cases hc)]
              omega
          | fg =>
            have hfgt' : fgpid t' = jb.pid := by
              rw [ht']
              unfold fgpid
              rw [find?_append_first (q := fun j => j.state == JState.FG)
                (fun x hx => by
                  have := countFG_eq_zero.mp hl0 x hx
                  cases hxs : x.state <;> simp_all) (by simp)]
            have hne : (fgpid t' == 0) = false := by
              rw [hfgt']
              simp only [beq_eq_false_iff_ne, ne_eq]
              omega
            simp only [hne]
            rw [if_neg (by simp)]
            refine inv_mk_waiting ?_ ?_ ?_
            · rw [ht']
              exact WFTbl_append_cons (htbl ▸ hwf)
                (Or.inr ⟨hjpid, hjjid, by intro hc; cases hc⟩)
            · rw [ht', countFG_append_cons, if_pos rfl]
              omega
            · intro x hx hst
              rw [ht'] at hx
              rcases List.mem_append.mp hx with hx | hx
              · exact absurd hst (countFG_eq_zero.mp hl0 x hx)
              · rcases List.mem_cons.mp hx with rfl | hx
                · exact hfgt'.symm
                · exact absurd hst (countFG_eq_zero.mp hr0 x hx)
      · have hv' : tgtValid tgt = false := by revert hv; cases tgtValid tgt <;> simp
        simp only [do_bgfg, hv', if_true]
        exact inv_mk_prompt hwf hfg0
  | waitingFg p =>
    have hw := hwait p rfl
    cases e with
    | sigint => exact ⟨hwf, hprompt, hhalt, hwait⟩
    | runExternal pid argv cmdline => exact ⟨hwf, hprompt, hhalt, hwait⟩
    | cmdBgFg cmd tgt => exact ⟨hwf, hprompt, hhalt, hwait⟩
    | sigchld ps =>
      refine inv_mk_waiting ?_ ?_ ?_
      · exact sigchld_reap_ind (fun t pid h => deletejob_wf pid h) ps tbl hwf
      · exact (sigchld_reap_ind
          (P := fun t => countFG t ≤ 1 ∧ ∀ j ∈ t, j.state = JState.FG → j.pid = p)
          (fun t pid h => ⟨le_trans (deletejob_countFG_le t pid) h.1,
            deletejob_fgprop pid h.2⟩) ps tbl hw).1
      · exact (sigchld_reap_ind
          (P := fun t => countFG t ≤ 1 ∧ ∀ j ∈ t, j.state = JState.FG → j.pid = p)
          (fun t pid h => ⟨le_trans (deletejob_countFG_le t pid) h.1,
            deletejob_fgprop pid h.2⟩) ps tbl hw).2
    | sigtstp =>
      exact inv_mk_waiting (sigtstpTbl_wf hwf)
        (le_trans (sigtstpTbl_countFG_le tbl) hw.1) (sigtstpTbl_fgprop hw.2)
    | waitReturn =>
      simp only [shellStep]
      by_cases hq : fgpid tbl == p
      · simp only [hq, if_true]
        exact ⟨hwf, hprompt, hhalt, hwait⟩
      · have hq' : (fgpid tbl == p) = false := by revert hq; cases fgpid tbl == p <;> simp
        simp only [hq', Bool.false_eq_true, if_false]
        refine inv_mk_prompt hwf ?_
        by_contra hc
        obtain ⟨j, hj, hst, hfgj⟩ := fgpid_of_fg_exists hc
        have : j.pid = p := hw.2 j hj hst
        rw [this] at hfgj
        exact absurd (by simp [hfgj]) (by simp [hq'] : ¬(fgpid tbl == p) = true)

theorem inv_reachable {s : Shell} (h : Reachable s) : Inv s := by
  induction h with
  | init => exact inv_init
  | step e _ ih => exact inv_step _ e ih

/-- C1: at every observable instant (after any sequence of job
insertions, bg/fg state changes, suspend-key transitions and removals,
i.e. in every reachable shell state), the Job Table contains at most one
entry whose state is Foreground. -/
theorem C1_at_most_one_foreground (s : Shell) (h : Reachable s) :
    countFG s.tbl ≤ 1 := by
  obtain ⟨_, hprompt, hhalt, hwait⟩ := inv_reachable h
  cases hm : s.mode with
  | prompt => rw [hprompt hm]; omega
  | halted => rw [hhalt hm]; omega
  | waitingFg p => exact (hwait p hm).1

/-- Witness for C1: a concrete reachable state (a foreground `sleep 5`
launched from the empty table, then hit with the suspend key). -/
theorem C1_at_most_one_foreground_witness :
    Reachable (shellStep (shellStep initShell
        (SEvent.runExternal 5 ["sleep", "5"] "sleep 5\n")) SEvent.sigtstp) ∧
      countFG (shellStep (shellStep initShell
        (SEvent.runExternal 5 ["sleep", "5"] "sleep 5\n")) SEvent.sigtstp).tbl ≤ 1 :=
  ⟨Reachable.step _ (Reachable.step _ Reachable.init),
    C1_at_most_one_foreground _ (Reachable.step _ (Reachable.step _ Reachable.init))⟩

/-! ### C10: non-positive pid guards -/

/-- C10: every pid-keyed Job Table operation rejects non-positive pids —
for `pid < 1`, `addjob` fails without modifying any slot, `deletejob`
returns false without modifying any slot, and `getjobpid` returns no
job, so a cleared slot (pid 0) can never be matched, mutated or returned
through the pid-keyed interface. -/
theorem C10_nonpositive_pid_rejected (tbl : List Job) (pid : Int) (st : JState)
    (cmd : String) (h : pid < 1) :
    addjob tbl pid st cmd = (false, tbl) ∧
    deletejob tbl pid = (false, tbl) ∧
    getjobpid tbl pid = none := by
  unfold addjob deletejob getjobpid
  rw [if_pos h, if_pos h, if_pos h]
  exact ⟨rfl, rfl, rfl⟩

/-- Witness for C10 at pid 0 (the cleared-slot pid) on the initial table. -/
theorem C10_nonpositive_pid_rejected_witness :
    ((0 : Int) < 1) ∧
      (addjob initjobs 0 JState.BG "x" = (false, initjobs) ∧
       deletejob initjobs 0 = (false, initjobs) ∧
       getjobpid initjobs 0 = none) :=
  ⟨by decide, C10_nonpositive_pid_rejected initjobs 0 JState.BG "x" (by decide)⟩

/-! ### C8: bg/fg on a nonexistent job -/

/-- C8: a `bg`/`fg` command whose target (bare pid or `%`-prefixed jid)
resolves to no live job prints a "No such job" message, sends no signal,
does not call `waitfg`, and leaves the Job Table entirely unchanged. -/
theorem C8_no_such_job (tbl : List Job) (cmd : BgFgCmd) (tgt : Target)
    (h : resolveTarget tbl tgt = none) :
    do_bgfg tbl cmd tgt =
      ⟨tbl, targetStr tgt ++ ": No such job\n", [], none⟩ := by
  have main : ∀ (hval : Int) (hv : tgtValid tgt = true),
      (∀ x ∈ tbl, tgtPred tgt x = false) →
      do_bgfg tbl cmd tgt = ⟨tbl, targetStr tgt ++ ": No such job\n", [], none⟩ := by
    intro _ hv hall
    unfold do_bgfg
    rw [hv]
    rw [if_neg (by simp)]
    rw [updateSlot_none.mpr hall]
  cases tgt with
  | byPid p =>
    simp only [resolveTarget, getjobpid] at h
    by_cases hp : p < 1
    · unfold do_bgfg
      rw [show tgtValid (Target.byPid p) = false by simp [tgtValid]; omega]
      rw [if_pos rfl]
    · rw [if_neg hp] at h
      refine main 0 (by simp [tgtValid]; omega) ?_
      intro x hx
      have := List.find?_eq_none.mp h x hx
      revert this
      cases hb : (x.pid == p) <;> simp [tgtPred, hb]
  | byJid n =>
    simp only [resolveTarget, getjobjid] at h
    by_cases hn : n < 1
    · unfold do_bgfg
      rw [show tgtValid (Target.byJid n) = false by simp [tgtValid]; omega]
      rw [if_pos rfl]
    · rw [if_neg hn] at h
      refine main 0 (by simp [tgtValid]; omega) ?_
      intro x hx
      have := List.find?_eq_none.mp h x hx
      revert this
      cases hb : (x.jid == n) <;> simp [tgtPred, hb]

/-- Witness for C8: `fg 99999` and `bg %99` on the initial (empty) table. -/
theorem C8_no_such_job_witness :
    (resolveTarget initjobs (Target.byPid 99999) = none ∧
      do_bgfg initjobs BgFgCmd.fg (Target.byPid 99999) =
        ⟨initjobs, targetStr (Target.byPid 99999) ++ ": No such job\n", [], none⟩) ∧
    (resolveTarget initjobs (Target.byJid 99) = none ∧
      do_bgfg initjobs BgFgCmd.bg (Target.byJid 99) =
        ⟨initjobs, targetStr (Target.byJid 99) ++ ": No such job\n", [], none⟩) :=
  ⟨⟨by decide, C8_no_such_job initjobs BgFgCmd.fg (Target.byPid 99999) (by decide)⟩,
   ⟨by decide, C8_no_such_job initjobs BgFgCmd.bg (Target.byJid 99) (by decide)⟩⟩

/-! ### C7: interrupt-key handling -/

/-- A successful `find?` splits the list at the first hit. -/
theorem find?_some_split {q : Job → Bool} {tbl : List Job} {j : Job}
    (h : tbl.find? q = some j) :
    ∃ l r, tbl = l ++ j :: r ∧ (∀ x ∈ l, q x = false) ∧ q j = true := by
  induction tbl with
  | nil => cases h
  | cons a rest ih =>
    by_cases hq : q a
    · rw [List.find?_cons_of_pos _ hq] at h
      obtain rfl : a = j := Option.some.inj h
      exact ⟨[], rest, rfl, by simp, hq⟩
    · have hqa : q a = false := by revert hq; cases q a <;> simp
      rw [List.find?_cons_of_neg _ hq] at h
      obtain ⟨l, r, rfl, hl, hj⟩ := ih h
      exact ⟨a :: l, r, rfl, by
        intro x hx
        rcases List.mem_cons.mp hx with rfl | hx
        · exact hqa
        · exact hl x hx, hj⟩

/-- Two first-match decompositions of the same list agree. -/
theorem first_match_unique {q : Job → Bool} :
    ∀ {l2 : List Job} {x0 : Job} {r2 l : List Job} {j : Job} {r : List Job},
      l2 ++ x0 :: r2 = l ++ j :: r →
      (∀ x ∈ l2, q x = false) → q x0 = true →
      (∀ x ∈ l, q x = false) → q j = true →
      l2 = l ∧ x0 = j ∧ r2 = r := by
  intro l2
  induction l2 with
  | nil =>
    intro x0 r2 l j r heq h2 hx0 hl hj
    cases l with
    | nil =>
      simp only [List.nil_append, List.cons.injEq] at heq
      exact ⟨rfl, heq.1, heq.2⟩
    | cons a l' =>
      simp only [List.nil_append, List.cons_append, List.cons.injEq] at heq
      exfalso
      have := hl a (by simp)
      rw [← heq.1, hx0] at this
      cases this
  | cons a l2' ih =>
    intro x0 r2 l j r heq h2 hx0 hl hj
    cases l with
    | nil =>
      simp only [List.cons_append, List.nil_append, List.cons.injEq] at heq
      exfalso
      have := h2 a (by simp)
      rw [heq.1, hj] at this
      cases this
    | cons b l' =>
      simp only [List.cons_append, List.cons.injEq] at heq
      obtain ⟨rfl, heq'⟩ := heq
      obtain ⟨h1, h2'', h3⟩ := ih heq' (fun x hx => h2 x (List.mem_cons_of_mem _ hx)) hx0
        (fun x hx => hl x (List.mem_cons_of_mem _ hx)) hj
      exact ⟨by rw [h1], h2'', h3⟩

/-- Occurrence count of slots with pid `p`. -/
def pidCount (tbl : List Job) (p : Int) : Nat := tbl.countP (fun j => j.pid == p)

theorem pidCount_append_cons (l r : List Job) (j : Job) (p : Int) :
    pidCount (l ++ j :: r) p =
      pidCount l p + pidCount r p + (if j.pid = p then 1 else 0) := by
  unfold pidCount
  rw [List.countP_append, List.countP_cons]
  by_cases h : j.pid = p
  · simp only [h, if_pos rfl]
    simp
    omega
  · have : (j.pid == p) = false := by simp [h]
    rw [this, if_neg h]
    simp

theorem pidCount_pos_of_mem {tbl : List Job} {x : Job} {p : Int}
    (hx : x ∈ tbl) (hp : x.pid = p) : 1 ≤ pidCount tbl p := by
  unfold pidCount
  have : 0 < tbl.countP (fun j => j.pid == p) :=
    List.countP_pos_iff.mpr ⟨x, hx, by simp [hp]⟩
  omega

/-- C7: when the interrupt key fires while a foreground job exists (and
pids are unique among slots, as fork guarantees), the handler sends
`SIGINT` to the negated pid — the job's entire process group — prints
exactly `Job [<jid>] (<pid>) terminated by signal 2` with that job's jid
and pid, and leaves the table to the child-state notification, whose
subsequent reap of that pid removes the job from the table; when no
foreground job exists, nothing is signaled or printed. -/
theorem C7_sigint_group_report_removal (tbl : List Job) (p : Int) (j : Job)
    (hone : pidCount tbl p ≤ 1) (hfg : fgpid tbl = p) (hp : 1 ≤ p)
    (hj : getjobpid tbl p = some j) :
    (sigint_handler tbl =
      some ⟨tbl, [(-p, Sig.SIGINT)],
        "Job [" ++ toString j.jid ++ "] (" ++ toString j.pid ++
          ") terminated by signal 2\n"⟩) ∧
    j.state = JState.FG ∧
    getjobpid (sigchld_reap tbl [p]) p = none ∧
    (∀ t, fgpid t = 0 → sigint_handler t = some ⟨t, [], ""⟩) := by
  have hfind : tbl.find? (fun x => x.pid == p) = some j := by
    unfold getjobpid at hj
    rwa [if_neg (by omega)] at hj
  obtain ⟨l, r, htbl, hl, hjp⟩ := find?_some_split hfind
  have hjpid : j.pid = p := by simpa using hjp
  have hrzero : pidCount r p = 0 := by
    have := pidCount_append_cons l r j p
    rw [← htbl] at this
    rw [if_pos hjpid] at this
    omega
  have hrnone : ∀ x ∈ r, (x.pid == p) = false := by
    intro x hx
    by_cases hxp : x.pid = p
    · exfalso
      have : 1 ≤ pidCount r p := pidCount_pos_of_mem hx hxp
      omega
    · simp [hxp]
  refine ⟨?_, ?_, ?_, ?_⟩
  · unfold sigint_handler
    rw [hfg]
    rw [if_neg (by simp; omega)]
    unfold getjobpid
    rw [if_neg (by omega), hfind]
  · -- the entry found by pid is the foreground entry
    have hne : fgpid tbl ≠ 0 := by omega
    have hcnt : countFG tbl ≠ 0 := by
      intro hc
      exact hne (fgpid_of_no_fg (countFG_eq_zero.mp hc))
    obtain ⟨x, hxmem, hxst, hxfg⟩ := fgpid_of_fg_exists hcnt
    have hxp : x.pid = p := by rw [← hxfg, hfg]
    -- x is in l, equals j, or is in r; l and r exclude pid p
    rw [htbl] at hxmem
    rcases List.mem_append.mp hxmem with hx | hx
    · exact absurd (by simp [hxp] : (x.pid == p) = true) (by simp [hl x hx])
    · rcases List.mem_cons.mp hx with rfl | hx
      · exact hxst
      · exact absurd (by simp [hxp] : (x.pid == p) = true) (by simp [hrnone x hx])
  · show getjobpid (deletejob tbl p).2 p = none
    unfold deletejob
    rw [if_neg (by omega)]
    have hup : updateSlot tbl (fun x => x.pid == p) (fun _ => clearjob) ≠ none := by
      intro hc
      exact absurd hjp (by simp [updateSlot_none.mp hc j (htbl ▸ List.mem_append.mpr
        (Or.inr (List.mem_cons_self _ _)))])
    cases hu : updateSlot tbl (fun x => x.pid == p) (fun _ => clearjob) with
    | none => exact absurd hu hup
    | some pr =>
      obtain ⟨x0, t'⟩ := pr
      obtain ⟨l2, r2, htbl2, ht', hl2, hx0⟩ := updateSlot_some hu
      unfold getjobpid
      rw [if_neg (by omega)]
      rw [List.find?_eq_none]
      intro x hx
      rw [ht'] at hx
      -- first matching slot positions agree: l2 = l, x0 = j, r2 = r
      have : l2 = l ∧ x0 = j ∧ r2 = r := by
        have := htbl2.symm.trans htbl
        exact first_match_unique this hl2 hx0 hl hjp
      obtain ⟨rfl, rfl, rfl⟩ := this
      rcases List.mem_append.mp hx with hx | hx
      · simp [hl2 x hx]
      · rcases List.mem_cons.mp hx with rfl | hx
        · show ¬(clearjob.pid == p) = true
          simp [clearjob]
          omega
        · simp [hrnone x hx]
  · intro t h0
    unfold sigint_handler
    rw [h0]
    rw [if_pos (by simp)]

/-- A one-foreground-job table: `sleep 5` as job [1], pid 7. -/
def tblC7 : List Job := ⟨7, 1, JState.FG, "sleep 5\n"⟩ :: List.replicate 15 clearjob

/-- Witness for C7 on `tblC7`. -/
theorem C7_sigint_group_report_removal_witness :
    (pidCount tblC7 7 ≤ 1 ∧ fgpid tblC7 = 7 ∧ (1 : Int) ≤ 7 ∧
      getjobpid tblC7 7 = some ⟨7, 1, JState.FG, "sleep 5\n"⟩) ∧
    (sigint_handler tblC7 = some ⟨tblC7, [(-7, Sig.SIGINT)],
        "Job [" ++ toString (1 : Int) ++ "] (" ++ toString (7 : Int) ++
          ") terminated by signal 2\n"⟩ ∧
      getjobpid (sigchld_reap tblC7 [7]) 7 = none) :=
  ⟨⟨by decide, by decide, by decide, by decide⟩,
    (C7_sigint_group_report_removal tblC7 7 ⟨7, 1, JState.FG, "sleep 5\n"⟩
      (by decide) (by decide) (by decide) (by decide)).1,
    (C7_sigint_group_report_removal tblC7 7 ⟨7, 1, JState.FG, "sleep 5\n"⟩
      (by decide) (by decide) (by decide) (by decide)).2.2.1⟩

/-! ### C3: suspend-key handling -/

/-- A foreground two-stage pipeline job: leader pid 7 is the process
group of both pipeline processes. -/
def tblC3 : List Job :=
  ⟨7, 1, JState.FG, "./a | ./b\n"⟩ :: List.replicate 15 clearjob

/-- The same table after the suspend key: entry marked `ST`, present. -/
def tblC3st : List Job :=
  ⟨7, 1, JState.ST, "./a | ./b\n"⟩ :: List.replicate 15 clearjob

/-- C3: evaluating `sigtstp_handler` at a foreground pipeline job shows
the stop signal is sent with the positive pid 7 — the leader process
only, not the process group target -7 that the claim describes — while
the entry is marked `Stopped` and left present in the table. -/
theorem C3_sigtstp_signals_leader_not_group :
    sigtstp_handler tblC3 = some ⟨tblC3st, [(7, Sig.SIGTSTP)], ""⟩ ∧
    (7 : Int) ≠ -7 ∧
    ((-7 : Int), Sig.SIGTSTP) ∉ [((7 : Int), Sig.SIGTSTP)] ∧
    getjobpid tblC3st 7 = some ⟨7, 1, JState.ST, "./a | ./b\n"⟩ := by decide

/-! ### C6: fg waits on the post-update foreground scan -/

/-- A table with a stopped job [1] (pid 7) in slot 0 and a foreground
job [2] (pid 3) in slot 1. -/
def tblC6 : List Job :=
  ⟨7, 1, JState.ST, "sleep 100\n"⟩ :: ⟨3, 2, JState.FG, "sleep 200\n"⟩ ::
    List.replicate 14 clearjob

/-- C6 counterexample: with foreground pid 3 before the command, `fg %1`
resumes job pid 7 and then calls `waitfg` on pid 7 — the first foreground
entry of the scan performed after the target is marked Foreground — not
on the pre-command foreground pid 3 as the claim states. -/
theorem C6_counterexample_waits_on_rescanned_pid :
    fgpid tblC6 = 3 ∧
    (do_bgfg tblC6 BgFgCmd.fg (Target.byJid 1)).waited = some 7 ∧
    (do_bgfg tblC6 BgFgCmd.fg (Target.byJid 1)).waited ≠ some (fgpid tblC6) := by
  decide

/-- C6 (amended): for every `fg` whose target resolves to a live job
`jb`, dispatched while no table entry is foreground (the situation at
every prompt), `do_bgfg` sets `jb`'s state to Foreground, sends `SIGCONT`
to `jb`'s process group, and invokes the Foreground Waiter on the pid
found by re-scanning for a foreground entry after that update — which is
then the resumed job's own pid, not the pid of the job that was
foreground before the command. -/
theorem C6_fg_resumes_and_waits_on_target (tbl t' : List Job) (tgt : Target)
    (jb : Job) (hv : tgtValid tgt = true)
    (hup : updateSlot tbl (tgtPred tgt) (fun j => { j with state := JState.FG }) =
      some (jb, t'))
    (hfg0 : countFG tbl = 0) (hpid : 1 ≤ jb.pid) :
    do_bgfg tbl BgFgCmd.fg tgt = ⟨t', "", [(-jb.pid, Sig.SIGCONT)], some jb.pid⟩ ∧
    fgpid t' = jb.pid ∧
    (∃ l r, tbl = l ++ jb :: r ∧ t' = l ++ ({ jb with state := JState.FG } : Job) :: r) := by
  obtain ⟨l, r, htbl, ht', hl, hpj⟩ := updateSlot_some hup
  obtain ⟨hl0, hr0, _⟩ := countFG_zero_parts (htbl ▸ hfg0)
  have hfgt' : fgpid t' = jb.pid := by
    rw [ht']
    unfold fgpid
    rw [find?_append_first (q := fun j => j.state == JState.FG)
      (fun x hx => by
        have := countFG_eq_zero.mp hl0 x hx
        cases hxs : x.state <;> simp_all) (by simp)]
  refine ⟨?_, hfgt', l, r, htbl, ht'⟩
  simp only [do_bgfg, hv]
  rw [if_neg (by simp)]
  rw [hup]
  simp only
  rw [hfgt']
  rw [if_neg (by simp; omega)]

/-- Witness for the amended C6: `fg %1` on a table whose only job is the
stopped job [1] (pid 7). -/
theorem C6_fg_resumes_and_waits_on_target_witness :
    (tgtValid (Target.byJid 1) = true ∧
      updateSlot (⟨7, 1, JState.ST, "sleep 100\n"⟩ :: List.replicate 15 clearjob)
        (tgtPred (Target.byJid 1)) (fun j => { j with state := JState.FG }) =
        some (⟨7, 1, JState.ST, "sleep 100\n"⟩,
          ⟨7, 1, JState.FG, "sleep 100\n"⟩ :: List.replicate 15 clearjob) ∧
      countFG (⟨7, 1, JState.ST, "sleep 100\n"⟩ :: List.replicate 15 clearjob) = 0) ∧
    do_bgfg (⟨7, 1, JState.ST, "sleep 100\n"⟩ :: List.replicate 15 clearjob)
        BgFgCmd.fg (Target.byJid 1) =
      ⟨⟨7, 1, JState.FG, "sleep 100\n"⟩ :: List.replicate 15 clearjob, "",
        [(-7, Sig.SIGCONT)], some 7⟩ :=
  ⟨⟨by decide, by decide, by decide⟩,
    (C6_fg_resumes_and_waits_on_target _ _ (Target.byJid 1)
      ⟨7, 1, JState.ST, "sleep 100\n"⟩ (by decide) (by decide) (by decide) (by decide)).1⟩

/-! ### C5: background-launch announcement -/

/-- C5 counterexample: launching `sleep 5 &` (pid 42) on the empty table
prints `[1] (42) Running sleep 5 &`, which is not of the claimed form
`[<jid>] (<pid>) <command_line>` (the word `Running ` is interposed). -/
theorem C5_counterexample_announcement_has_running :
    (evalExternal initjobs 42 ["sleep", "5", "&"] "sleep 5 &\n").output =
      "[1] (42) Running sleep 5 &\n" ∧
    (evalExternal initjobs 42 ["sleep", "5", "&"] "sleep 5 &\n").output ≠
      specBgAnnounce 1 42 "sleep 5 &\n" := by decide

/-- On any table, a successful background registration of a fresh pid
returns to the prompt and announces `[<jid>] (<pid>) Running <cmdline>`
with the jid `addjob` actually assigned (the smallest free one). -/
theorem evalExternal_bg_announce (tbl : List Job) (pid : Int) (argv : List String)
    (cmdline : String) (hp : 1 ≤ pid) (hbg : bgRequested argv = true)
    (hfresh : ∀ j ∈ tbl, j.pid ≠ pid)
    (hsucc : (addjob tbl pid JState.BG cmdline).1 = true) :
    (evalExternal tbl pid argv cmdline).mode = Mode.prompt ∧
    (evalExternal tbl pid argv cmdline).output =
      bgAnnounce (freejid tbl) pid cmdline := by
  cases haj : addjob tbl pid JState.BG cmdline with
  | mk ok t2 =>
    cases ok with
    | false => rw [haj] at hsucc; cases hsucc
    | true =>
      obtain ⟨_, hfree, l, j0, r, htbl, hj0pid, _, ht2⟩ := addjob_success haj
      have hget : getjobpid t2 pid = some ⟨pid, freejid tbl, JState.BG, cmdline⟩ := by
        unfold getjobpid
        rw [if_neg (by omega)]
        rw [ht2]
        refine find?_append_first ?_ (by simp)
        intro x hx
        have hxne : x.pid ≠ pid :=
          hfresh x (htbl ▸ List.mem_append.mpr (Or.inl hx))
        simp [hxne]
      simp only [evalExternal, hbg, if_true, haj, hget]
      exact ⟨trivial, trivial⟩

/-- C5 (amended): for every command launched with a trailing `&` whose
registration succeeds (fresh pid, table not full), the shell returns
control to the prompt immediately and prints an announcement of exactly
the form `[<jid>] (<pid>) Running <command_line>`, where `<jid>` is the
jid actually assigned (the smallest free one); on the empty table that
assigned jid is 1. -/
theorem C5_bg_launch_announcement (tbl : List Job) (pid : Int) (argv : List String)
    (cmdline : String) (hp : 1 ≤ pid) (hbg : bgRequested argv = true)
    (hfresh : ∀ j ∈ tbl, j.pid ≠ pid)
    (hsucc : (addjob tbl pid JState.BG cmdline).1 = true) :
    ((evalExternal tbl pid argv cmdline).mode = Mode.prompt ∧
      (evalExternal tbl pid argv cmdline).output =
        bgAnnounce (freejid tbl) pid cmdline) ∧
    (freejid initjobs = 1 ∧
      (evalExternal initjobs pid argv cmdline).mode = Mode.prompt ∧
      (evalExternal initjobs pid argv cmdline).output = bgAnnounce 1 pid cmdline) := by
  refine ⟨evalExternal_bg_announce tbl pid argv cmdline hp hbg hfresh hsucc,
    by decide, ?_⟩
  have hsucc0 : (addjob initjobs pid JState.BG cmdline).1 = true := by
    simp only [addjob]
    rw [if_neg (by omega)]
    rw [show freejid initjobs = 1 from by decide]
    rw [if_neg (by decide : ¬(((1 : Int) == 0) = true))]
    rfl
  have h := evalExternal_bg_announce initjobs pid argv cmdline hp hbg
    (fun j hj => by
      rw [List.eq_of_mem_replicate hj]
      show (0 : Int) ≠ pid
      omega)
    hsucc0
  rw [show freejid initjobs = 1 from by decide] at h
  exact h

/-- Witness for the amended C5: `sleep 5 &`, fresh pid 42, on a table
already holding jobs [1] and [2] (so the assigned jid there is 3), plus
the empty-table instance with jid 1. -/
def tblC5w : List Job :=
  ⟨7, 1, JState.BG, "sleep 100 &\n"⟩ :: ⟨8, 2, JState.ST, "sleep 200\n"⟩ ::
    List.replicate 14 clearjob

theorem C5_bg_launch_announcement_witness :
    ((1 : Int) ≤ 42 ∧ bgRequested ["sleep", "5", "&"] = true ∧
      (∀ j ∈ tblC5w, j.pid ≠ 42) ∧
      (addjob tblC5w 42 JState.BG "sleep 5 &\n").1 = true) ∧
    ((evalExternal tblC5w 42 ["sleep", "5", "&"] "sleep 5 &\n").mode = Mode.prompt ∧
      (evalExternal tblC5w 42 ["sleep", "5", "&"] "sleep 5 &\n").output =
        bgAnnounce (freejid tblC5w) 42 "sleep 5 &\n") ∧
    (freejid initjobs = 1 ∧
      (evalExternal initjobs 42 ["sleep", "5", "&"] "sleep 5 &\n").mode = Mode.prompt ∧
      (evalExternal initjobs 42 ["sleep", "5", "&"] "sleep 5 &\n").output =
        bgAnnounce 1 42 "sleep 5 &\n") :=
  ⟨⟨by decide, by decide, by decide, by decide⟩,
    (C5_bg_launch_announcement tblC5w 42 ["sleep", "5", "&"] "sleep 5 &\n"
      (by decide) (by decide) (by decide) (by decide)).1,
    (C5_bg_launch_announcement tblC5w 42 ["sleep", "5", "&"] "sleep 5 &\n"
      (by decide) (by decide) (by decide) (by decide)).2⟩

/-! ### C2: jid assignment and the Full error -/

/-- A Job Table operation: an insertion (with the pid `fork` produced) or
a removal. -/
inductive TblOp where
  | ins (pid : Int) (st : JState) (cmd : String)
  | del (pid : Int)

def applyOp (tbl : List Job) : TblOp → List Job
  | TblOp.ins pid st cmd => (addjob tbl pid st cmd).2
  | TblOp.del pid => (deletejob tbl pid).2

/-- The table after a sequence of insertions/removals from the initial
(empty) table. -/
def runOps (ops : List TblOp) : List Job := ops.foldl applyOp initjobs

/-- Each slot is either cleared (pid 0, jid 0) or live (positive pid and
jid) — the part of slot well-formedness that insert/remove sequences
maintain regardless of the state argument. -/
def WFSlots (tbl : List Job) : Prop :=
  ∀ j ∈ tbl, (j.pid = 0 ∧ j.jid = 0) ∨ (1 ≤ j.pid ∧ 1 ≤ j.jid)

/-- Replacing the middle slot preserves a pointwise property. -/
theorem forall_replace {P : Job → Prop} {l r : List Job} {j j' : Job}
    (h : ∀ x ∈ l ++ j :: r, P x) (h' : P j') : ∀ x ∈ l ++ j' :: r, P x := by
  intro x hx
  rcases List.mem_append.mp hx with hx | hx
  · exact h x (List.mem_append.mpr (Or.inl hx))
  · rcases List.mem_cons.mp hx with rfl | hx
    · exact h'
    · exact h x (List.mem_append.mpr (Or.inr (List.mem_cons_of_mem _ hx)))

/-- Job-table well-formedness maintained by insert/remove sequences:
16 slots, paired pid/jid liveness, pairwise-distinct live jids, live
jids in `1..16`. -/
def JTblWF (tbl : List Job) : Prop :=
  tbl.length = MAXJOBS ∧ WFSlots tbl ∧ (liveJids tbl).Nodup ∧
  ∀ n ∈ liveJids tbl, 1 ≤ n ∧ n ≤ 16

theorem freejidFrom_cases (tbl : List Job) :
    ∀ (fuel i : Nat), freejidFrom tbl i fuel = 0 ∨
      ∃ k : Nat, i ≤ k ∧ k < i + fuel ∧ freejidFrom tbl i fuel = (k : Int) ∧
        tbl.any (fun j => j.jid == (k : Int)) = false := by
  intro fuel
  induction fuel with
  | zero => intro i; exact Or.inl rfl
  | succ n ih =>
    intro i
    rw [freejidFrom]
    by_cases h : tbl.any (fun j => j.jid == (i : Int))
    · rw [if_pos h]
      rcases ih (i + 1) with h0 | ⟨k, hk1, hk2, hk3, hk4⟩
      · exact Or.inl h0
      · exact Or.inr ⟨k, by omega, by omega, hk3, hk4⟩
    · rw [if_neg h]
      exact Or.inr ⟨i, le_refl i, by omega, rfl,
        by revert h; cases tbl.any (fun j => j.jid == (i : Int)) <;> simp⟩

theorem freejidFrom_min (tbl : List Job) :
    ∀ (fuel i k : Nat), freejidFrom tbl i fuel = (k : Int) → 1 ≤ k →
      ∀ m : Nat, i ≤ m → m < k → tbl.any (fun j => j.jid == (m : Int)) = true := by
  intro fuel
  induction fuel with
  | zero =>
    intro i k h hk m him hmk
    rw [freejidFrom] at h
    exfalso
    omega
  | succ n ih =>
    intro i k h hk m him hmk
    rw [freejidFrom] at h
    by_cases ht : tbl.any (fun j => j.jid == (i : Int))
    · rw [if_pos ht] at h
      rcases Nat.eq_or_lt_of_le him with rfl | hlt
      · exact ht
      · exact ih (i + 1) k h hk m hlt hmk
    · rw [if_neg ht] at h
      have : i = k := by exact_mod_cast h
      omega

theorem freejidFrom_zero (tbl : List Job) :
    ∀ (fuel i : Nat), 1 ≤ i → freejidFrom tbl i fuel = 0 →
      ∀ m : Nat, i ≤ m → m < i + fuel → tbl.any (fun j => j.jid == (m : Int)) = true := by
  intro fuel
  induction fuel with
  | zero => intro i _ _ m _ hm; omega
  | succ n ih =>
    intro i hi h m him hm
    rw [freejidFrom] at h
    by_cases ht : tbl.any (fun j => j.jid == (i : Int))
    · rw [if_pos ht] at h
      rcases Nat.eq_or_lt_of_le him with rfl | hlt
      · exact ht
      · exact ih (i + 1) (by omega) h m hlt (by omega)
    · rw [if_neg ht] at h
      exfalso
      have : (i : Int) = 0 := h
      omega

/-- For positive `n`, the `taken` test agrees with membership in the
live jids. -/
theorem any_jid_iff {tbl : List Job} {n : Int} (hn : 1 ≤ n) :
    tbl.any (fun j => j.jid == n) = true ↔ n ∈ liveJids tbl := by
  unfold liveJids
  rw [List.any_eq_true]
  constructor
  · rintro ⟨j, hj, hjn⟩
    simp only [beq_iff_eq] at hjn
    exact List.mem_map.mpr ⟨j, List.mem_filter.mpr ⟨hj, by simp [hjn]; omega⟩, hjn⟩
  · intro h
    obtain ⟨j, hj, hjn⟩ := List.mem_map.mp h
    exact ⟨j, (List.mem_filter.mp hj).1, by simp [hjn]⟩

theorem liveJids_append (l r : List Job) :
    liveJids (l ++ r) = liveJids l ++ liveJids r := by
  unfold liveJids
  rw [List.filter_append, List.map_append]

theorem liveJids_cons_live {x : Job} (r : List Job) (h : x.jid ≠ 0) :
    liveJids (x :: r) = x.jid :: liveJids r := by
  unfold liveJids
  rw [List.filter_cons_of_pos (by simp [h]), List.map_cons]

theorem liveJids_cons_dead {x : Job} (r : List Job) (h : x.jid = 0) :
    liveJids (x :: r) = liveJids r := by
  unfold liveJids
  rw [List.filter_cons_of_neg (by simp [h])]

theorem countP_congr_tbl {p q : Job → Bool} :
    ∀ {tbl : List Job}, (∀ j ∈ tbl, p j = q j) → tbl.countP p = tbl.countP q := by
  intro tbl
  induction tbl with
  | nil => intro _; rfl
  | cons a rest ih =>
    intro h
    rw [List.countP_cons, List.countP_cons, h a (by simp),
      ih (fun j hj => h j (List.mem_cons_of_mem _ hj))]

/-- Under slot well-formedness, the live-slot count is the number of
live jids. -/
theorem countLive_eq_liveJids_length {tbl : List Job} (h : WFSlots tbl) :
    countLive tbl = (liveJids tbl).length := by
  unfold countLive liveJids
  rw [List.length_map, ← List.countP_eq_length_filter]
  apply countP_congr_tbl
  intro j hj
  rcases h j hj with ⟨hp, hjid⟩ | ⟨hp, hjid⟩
  · simp [hp, hjid]
  · have h1 : (j.pid != 0) = true := by simp; omega
    have h2 : (j.jid != 0) = true := by simp; omega
    rw [h1, h2]

/-- With a free slot available, `freejid` returns the smallest positive
integer not used by a live entry, and it lies in `1..16`. -/
theorem freejid_spec {tbl : List Job} (hwf : JTblWF tbl)
    (hlt : countLive tbl < MAXJOBS) :
    1 ≤ freejid tbl ∧ freejid tbl ≤ 16 ∧ freejid tbl ∉ liveJids tbl ∧
      ∀ m : Int, 1 ≤ m → m < freejid tbl → m ∈ liveJids tbl := by
  obtain ⟨hlen, hwft, hnd, hbd⟩ := hwf
  rcases freejidFrom_cases tbl MAXJOBS 1 with h0 | ⟨k, hk1, hk2, hk3, hk4⟩
  · exfalso
    have htaken : ∀ m : Nat, 1 ≤ m → m < 17 →
        tbl.any (fun j => j.jid == (m : Int)) = true := by
      intro m h1 h2
      exact freejidFrom_zero tbl MAXJOBS 1 (by omega) h0 m h1
        (by unfold MAXJOBS; omega)
    have hsub : Finset.Icc (1 : Int) 16 ⊆ (liveJids tbl).toFinset := by
      intro n hn
      rw [Finset.mem_Icc] at hn
      rw [List.mem_toFinset]
      have hnat : n = ((n.toNat : Nat) : Int) := by omega
      refine (any_jid_iff (by omega)).mp ?_
      rw [hnat]
      exact htaken n.toNat (by omega) (by omega)
    have hcard : (16 : Nat) ≤ (liveJids tbl).toFinset.card := by
      have hc := Finset.card_le_card hsub
      rw [Int.card_Icc] at hc
      simpa using hc
    have hlen2 : (liveJids tbl).toFinset.card ≤ (liveJids tbl).length :=
      List.toFinset_card_le _
    rw [countLive_eq_liveJids_length hwft] at hlt
    unfold MAXJOBS at hlt
    omega
  · unfold freejid
    rw [hk3]
    have hk16 : k ≤ 16 := by unfold MAXJOBS at hk2; omega
    refine ⟨by exact_mod_cast hk1, by exact_mod_cast hk16, ?_, ?_⟩
    · intro hc
      rw [← any_jid_iff (by exact_mod_cast hk1)] at hc
      rw [hc] at hk4; cases hk4
    · intro m h1 hm
      have hmnat : m = ((m.toNat : Nat) : Int) := by omega
      rw [hmnat]
      refine (any_jid_iff (by omega)).mp ?_
      exact freejidFrom_min tbl MAXJOBS 1 k hk3 (by omega) m.toNat (by omega) (by omega)

/-- If no jid in `1..16` is free, the table is full. -/
theorem full_of_freejid_zero {tbl : List Job} (hwf : JTblWF tbl)
    (h : freejid tbl = 0) : countLive tbl = MAXJOBS := by
  by_contra hc
  have hle : countLive tbl ≤ MAXJOBS := by
    have := List.countP_le_length (l := tbl) (p := fun j => j.pid != 0)
    unfold countLive
    rw [← hwf.1]
    exact this
  have hlt : countLive tbl < MAXJOBS := by omega
  have := (freejid_spec hwf hlt).1
  omega

theorem jtblwf_addjob {tbl : List Job} (hwf : JTblWF tbl) (pid : Int)
    (st : JState) (cmd : String) : JTblWF (addjob tbl pid st cmd).2 := by
  cases haj : addjob tbl pid st cmd with
  | mk ok t2 =>
    cases ok with
    | false => rw [addjob_fail haj]; exact hwf
    | true =>
      obtain ⟨hpid, hfree, l, j0, r, htbl, hj0pid, _, ht2⟩ := addjob_success haj
      obtain ⟨hlen, hwft, hnd, hbd⟩ := hwf
      have hj0jid : j0.jid = 0 := by
        rcases hwft j0 (htbl ▸ List.mem_append.mpr (Or.inr (List.mem_cons_self _ _))) with
          ⟨_, hj⟩ | ⟨hp, _⟩
        · exact hj
        · omega
      have hjtbl : liveJids tbl = liveJids l ++ liveJids r := by
        rw [htbl, liveJids_append, liveJids_cons_dead _ hj0jid]
      have hlive : countLive tbl < MAXJOBS := by
        have h1 : countLive tbl = (liveJids tbl).length := countLive_eq_liveJids_length hwft
        have h2 : (liveJids l).length ≤ l.length := by
          unfold liveJids
          rw [List.length_map]
          exact List.length_filter_le _ _
        have h4 : l.length + (r.length + 1) = MAXJOBS := by
          have h5 := hlen
          rw [htbl] at h5
          simpa using h5
        rw [h1, hjtbl, List.length_append]
        have h3 : (liveJids r).length ≤ r.length := by
          unfold liveJids
          rw [List.length_map]
          exact List.length_filter_le _ _
        omega
      obtain ⟨hf1, hf16, hfnotin, _⟩ := freejid_spec ⟨hlen, hwft, hnd, hbd⟩ hlive
      have hjt2 : liveJids t2 = liveJids l ++ freejid tbl :: liveJids r := by
        rw [ht2, liveJids_append, liveJids_cons_live _ (by simp; omega)]
      refine ⟨?_, ?_, ?_, ?_⟩
      · rw [ht2]
        have h5 := hlen
        rw [htbl] at h5
        simpa using h5
      · rw [ht2]
        exact forall_replace (htbl ▸ hwft) (Or.inr ⟨hpid, hfree⟩)
      · rw [hjt2, List.nodup_middle, List.nodup_cons, ← hjtbl]
        exact ⟨hfnotin, hnd⟩
      · intro n hn
        rw [hjt2] at hn
        rcases List.mem_append.mp hn with hn | hn
        · exact hbd n (hjtbl ▸ List.mem_append.mpr (Or.inl hn))
        · rcases List.mem_cons.mp hn with rfl | hn
          · exact ⟨hf1, hf16⟩
          · exact hbd n (hjtbl ▸ List.mem_append.mpr (Or.inr hn))

theorem jtblwf_deletejob {tbl : List Job} (hwf : JTblWF tbl) (pid : Int) :
    JTblWF (deletejob tbl pid).2 := by
  rcases deletejob_cases tbl pid with heq | ⟨l, j0, r, htbl, heq⟩
  · rw [heq]; exact hwf
  · obtain ⟨hlen, hwft, hnd, hbd⟩ := hwf
    have hsub : List.Sublist (liveJids (deletejob tbl pid).2) (liveJids tbl) := by
      rw [heq, htbl, liveJids_append, liveJids_append,
        liveJids_cons_dead _ (by simp [clearjob])]
      refine List.Sublist.append_left ?_ _
      cases hj : decide (j0.jid = 0) with
      | true =>
        rw [liveJids_cons_dead _ (by simpa using hj)]
      | false =>
        rw [liveJids_cons_live _ (by simpa using hj)]
        exact List.sublist_cons_self _ _
    refine ⟨?_, ?_, hnd.sublist hsub, fun n hn => hbd n (hsub.subset hn)⟩
    · rw [heq]
      have h5 := hlen
      rw [htbl] at h5
      simpa using h5
    · rw [heq]
      exact forall_replace (htbl ▸ hwft) (Or.inl ⟨rfl, rfl⟩)

theorem jtblwf_runOps (ops : List TblOp) : JTblWF (runOps ops) := by
  have haux : ∀ (os : List TblOp) (tbl : List Job), JTblWF tbl →
      JTblWF (os.foldl applyOp tbl) := by
    intro os
    induction os with
    | nil => intro tbl h; exact h
    | cons o rest ih =>
      intro tbl h
      refine ih _ ?_
      cases o with
      | ins pid st cmd => exact jtblwf_addjob h pid st cmd
      | del pid => exact jtblwf_deletejob h pid
  refine haux ops initjobs ?_
  refine ⟨by decide, ?_, by decide, by decide⟩
  intro j hj
  rw [List.eq_of_mem_replicate hj]
  exact Or.inl ⟨rfl, rfl⟩

/-- Core of C2 over any well-formed table: a successful `addjob` assigns
the smallest unused positive jid (which is at most 16) and stores the
entry with it; with a valid pid, `addjob` fails — storing nothing —
exactly when all 16 slots are occupied. -/
theorem addjob_smallest_and_full {tbl : List Job} (hwf : JTblWF tbl) (pid : Int)
    (st : JState) (cmd : String) (hpid : 1 ≤ pid) :
    ((addjob tbl pid st cmd).1 = true →
      1 ≤ freejid tbl ∧ freejid tbl ≤ 16 ∧ freejid tbl ∉ liveJids tbl ∧
      (∀ m : Int, 1 ≤ m → m < freejid tbl → m ∈ liveJids tbl) ∧
      (⟨pid, freejid tbl, st, cmd⟩ : Job) ∈ (addjob tbl pid st cmd).2) ∧
    ((addjob tbl pid st cmd).1 = false ↔ countLive tbl = MAXJOBS) ∧
    ((addjob tbl pid st cmd).1 = false → (addjob tbl pid st cmd).2 = tbl) := by
  obtain ⟨hlen, hwfs, hnd, hbd⟩ := hwf
  refine ⟨?_, ⟨?_, ?_⟩, ?_⟩
  · intro hsucc
    have haj : addjob tbl pid st cmd = (true, (addjob tbl pid st cmd).2) := by
      rw [← hsucc]
    obtain ⟨_, hfree, l, j0, r, htbl, hj0pid, _, ht2⟩ := addjob_success haj
    have hlive : countLive tbl < MAXJOBS := by
      have h1 : countLive tbl = (liveJids tbl).length := countLive_eq_liveJids_length hwfs
      have hj0jid : j0.jid = 0 := by
        rcases hwfs j0 (htbl ▸ List.mem_append.mpr (Or.inr (List.mem_cons_self _ _))) with
          ⟨_, hj⟩ | ⟨hp, _⟩
        · exact hj
        · omega
      have hjtbl : liveJids tbl = liveJids l ++ liveJids r := by
        rw [htbl, liveJids_append, liveJids_cons_dead _ hj0jid]
      have h2 : (liveJids l).length ≤ l.length := by
        unfold liveJids; rw [List.length_map]; exact List.length_filter_le _ _
      have h3 : (liveJids r).length ≤ r.length := by
        unfold liveJids; rw [List.length_map]; exact List.length_filter_le _ _
      have h4 : l.length + (r.length + 1) = MAXJOBS := by
        have h5 := hlen; rw [htbl] at h5; simpa using h5
      rw [h1, hjtbl, List.length_append]
      omega
    obtain ⟨hf1, hf16, hnotin, hmin⟩ := freejid_spec ⟨hlen, hwfs, hnd, hbd⟩ hlive
    refine ⟨hf1, hf16, hnotin, hmin, ?_⟩
    rw [ht2]
    exact List.mem_append.mpr (Or.inr (List.mem_cons_self _ _))
  · intro hfail
    simp only [addjob] at hfail
    rw [if_neg (by omega)] at hfail
    by_cases hf : freejid tbl == 0
    · exact full_of_freejid_zero ⟨hlen, hwfs, hnd, hbd⟩ (by simpa using hf)
    · have hf' : (freejid tbl == 0) = false := by
        revert hf; cases freejid tbl == 0 <;> simp
      rw [hf'] at hfail
      rw [if_neg (by simp)] at hfail
      cases hup : updateSlot tbl (fun j => j.pid == 0)
          (fun _ => ⟨pid, freejid tbl, st, cmd⟩) with
      | none =>
        have hall := updateSlot_none.mp hup
        unfold countLive
        rw [← hlen]
        apply List.countP_eq_length.mpr
        intro x hx
        have hx0 := hall x hx
        simp only [bne_iff_ne, ne_eq]
        intro hc
        rw [hc] at hx0
        simp at hx0
      | some pr =>
        obtain ⟨a, b⟩ := pr
        rw [hup] at hfail
        cases hfail
  · intro hfull
    simp only [addjob]
    rw [if_neg (by omega)]
    by_cases hf : freejid tbl == 0
    · rw [if_pos hf]
    · have hf' : (freejid tbl == 0) = false := by
        revert hf; cases freejid tbl == 0 <;> simp
      rw [hf']
      rw [if_neg (by simp)]
      have hall : ∀ x ∈ tbl, ((fun j => j.pid == (0 : Int)) x) = false := by
        have hcnt : tbl.countP (fun j => j.pid != 0) = tbl.length := by
          unfold countLive at hfull
          rw [hfull, hlen]
        have := List.countP_eq_length.mp hcnt
        intro x hx
        have hne := this x hx
        simp only [bne_iff_ne, ne_eq] at hne
        simp [hne]
      rw [updateSlot_none.mpr hall]
  · intro hfail
    have haj : addjob tbl pid st cmd = (false, (addjob tbl pid st cmd).2) := by
      rw [← hfail]
    exact addjob_fail haj

/-- C2: for every sequence of job insertions and removals, each
successful insert assigns as jid the smallest positive integer not
currently in use by a live entry (so jids are densely reused and never
exceed the table capacity 16) and stores the entry with it; insert with
a valid pid fails — storing nothing — exactly when all 16 slots are
occupied. -/
theorem C2_smallest_free_jid_and_full_error (ops : List TblOp) (pid : Int)
    (st : JState) (cmd : String) (hpid : 1 ≤ pid) :
    ((addjob (runOps ops) pid st cmd).1 = true →
      1 ≤ freejid (runOps ops) ∧ freejid (runOps ops) ≤ 16 ∧
      freejid (runOps ops) ∉ liveJids (runOps ops) ∧
      (∀ m : Int, 1 ≤ m → m < freejid (runOps ops) → m ∈ liveJids (runOps ops)) ∧
      (⟨pid, freejid (runOps ops), st, cmd⟩ : Job) ∈ (addjob (runOps ops) pid st cmd).2) ∧
    ((addjob (runOps ops) pid st cmd).1 = false ↔ countLive (runOps ops) = MAXJOBS) ∧
    ((addjob (runOps ops) pid st cmd).1 = false →
      (addjob (runOps ops) pid st cmd).2 = runOps ops) :=
  addjob_smallest_and_full (jtblwf_runOps ops) pid st cmd hpid

/-- Witness for C2: inserting pid 5 after the sequence
`ins 3; ins 4; del 3` assigns jid 1 (the smallest unused), and the insert
does not fail on the non-full table. -/
theorem C2_smallest_free_jid_and_full_error_witness :
    ((1 : Int) ≤ 5) ∧
    ((addjob (runOps [TblOp.ins 3 JState.BG "a\n", TblOp.ins 4 JState.BG "b\n",
        TblOp.del 3]) 5 JState.BG "c\n").1 = false ↔
      countLive (runOps [TblOp.ins 3 JState.BG "a\n", TblOp.ins 4 JState.BG "b\n",
        TblOp.del 3]) = MAXJOBS) :=
  ⟨by decide,
    (C2_smallest_free_jid_and_full_error
      [TblOp.ins 3 JState.BG "a\n", TblOp.ins 4 JState.BG "b\n", TblOp.del 3]
      5 JState.BG "c\n" (by decide)).2.1⟩

/-! ### C4: I/O redirection in the child -/

/-- The open flags the redirection code passes to `open` (the relevant
subset of fcntl's). -/
inductive OFlag where
  | O_RDONLY
  | O_RDWR
  | O_CREAT
  | O_TRUNC
deriving DecidableEq, Repr

/-- One redirection performed by the child: open `file` with `flags` and
`dup2` the resulting descriptor onto each fd in `targets`
(`redirect_stream`). -/
structure RedirAct where
  file : String
  flags : List OFlag
  targets : List Nat
deriving DecidableEq, Repr

/-- `remove_args` from tsh.c on the argv array (cells are `none` for
NULL or indeterminate memory; reads past the end yield `none`): shift
`arr[i] = arr[i + num]` for `i` in `[idx, arr_l)`, then write a
terminator at `arr[idx + num]`. -/
def remove_args (arr : List (Option String)) (arr_l idx num : Nat) :
    List (Option String) :=
  ((List.range (arr_l - idx)).foldl
    (fun a k => a.set (idx + k) (a.getD (idx + k + num) none)) arr).set (idx + num) none

/-- The redirection scan loop of `eval` (child side): walk `i` upward
while `i < argc - 1`; on `<` open the next token read-only onto fd 0, on
`>` open it read/write+create onto fds 1 and 2; each hit removes the two
tokens with `remove_args` and takes two off `argc`.  Reading a null (or
indeterminate) cell as a token is the C code's `strcmp(NULL, ..)` crash,
modelled as `none`.  `fuel` only bounds the recursion; any `fuel > argc`
is enough, and the loop-exit test is checked before fuel is consumed. -/
def scanRedirs : Nat → List (Option String) → Nat → Nat → List RedirAct →
    Option (List (Option String) × Nat × List RedirAct)
  | fuel, arr, argc, i, acc =>
    if i + 1 < argc then
      match fuel with
      | 0 => none
      | Nat.succ f =>
        match arr.getD i none with
        | none => none
        | some a =>
          if a = "<" then
            match arr.getD (i + 1) none with
            | none => none
            | some file =>
              scanRedirs f (remove_args arr argc i 2) (argc - 2) (i + 1)
                (acc ++ [⟨file, [OFlag.O_RDONLY], [0]⟩])
          else if a = ">" then
            match arr.getD (i + 1) none with
            | none => none
            | some file =>
              scanRedirs f (remove_args arr argc i 2) (argc - 2) (i + 1)
                (acc ++ [⟨file, [OFlag.O_RDWR, OFlag.O_CREAT], [1, 2]⟩])
          else scanRedirs f arr argc (i + 1) acc
    else some (arr, argc, acc)

/-- The argv array as the child sees it after `parseline`: the tokens,
then the NULL terminator. -/
def toArr (tokens : List String) : List (Option String) := tokens.map some ++ [none]

/-- The child's whole redirection phase on a token list. -/
def childRedirect (tokens : List String) :
    Option (List (Option String) × Nat × List RedirAct) :=
  scanRedirs (tokens.length + 1) (toArr tokens) tokens.length 0 []

/-- The argument vector `execve` receives: cells up to the first null. -/
def argvOf : List (Option String) → List String
  | [] => []
  | none :: _ => []
  | some a :: rest => a :: argvOf rest

/-- POSIX meaning of the open flags for an existing file's content:
`O_TRUNC` empties it, otherwise it is kept. -/
def contentAfterOpen (existing : String) (flags : List OFlag) : String :=
  if OFlag.O_TRUNC ∈ flags then "" else existing

/-- C4 counterexample, three exhibited violations of the claim.
(1) No truncation: `cmd > out.txt` opens the output file with
`O_RDWR | O_CREAT` — without `O_TRUNC` — so an existing file keeps its
old content instead of being truncated (the dup targets 1 and 2 and the
consumed tokens match the claim).
(2) Compaction loses tokens: in `cmd < in.txt a b c` the recognized
redirection's `remove_args` plants a terminator two slots past the
operator, so the third following token `c` is destroyed and the program
receives argv `cmd a b`, not the claimed in-order compaction
`cmd a b c`.
(3) A redirection token is skipped: in `cmd > f < g` the `<` shifted
into the consumed operator's position is never re-examined, so only the
output redirection is performed and `<` with `g` survive as plain
arguments. -/
theorem C4_counterexample_no_truncation :
    (childRedirect ["cmd", ">", "out.txt"] =
      some ([some "cmd", none, none, none], 1,
        [⟨"out.txt", [OFlag.O_RDWR, OFlag.O_CREAT], [1, 2]⟩]) ∧
     OFlag.O_TRUNC ∉ [OFlag.O_RDWR, OFlag.O_CREAT] ∧
     contentAfterOpen "old" [OFlag.O_RDWR, OFlag.O_CREAT] = "old" ∧
     ("old" : String) ≠ "") ∧
    (childRedirect ["cmd", "<", "in.txt", "a", "b", "c"] =
      some ([some "cmd", some "a", some "b", none, none, none, none], 4,
        [⟨"in.txt", [OFlag.O_RDONLY], [0]⟩]) ∧
     argvOf [some "cmd", some "a", some "b", none, none, none, none] =
       ["cmd", "a", "b"] ∧
     (["cmd", "a", "b"] : List String) ≠ ["cmd", "a", "b", "c"]) ∧
    (childRedirect ["cmd", ">", "f", "<", "g"] =
      some ([some "cmd", some "<", some "g", none, none, none], 3,
        [⟨"f", [OFlag.O_RDWR, OFlag.O_CREAT], [1, 2]⟩]) ∧
     argvOf [some "cmd", some "<", some "g", none, none, none] =
       ["cmd", "<", "g"]) := by decide

theorem getD_map_some {l : List String} (rest : List (Option String)) :
    ∀ {d : Nat}, d < l.length →
      ∃ a ∈ l, (l.map some ++ rest).getD d none = some a := by
  induction l with
  | nil => intro d h; exact absurd h (by simp)
  | cons x t ih =>
    intro d h
    cases d with
    | zero => exact ⟨x, by simp, rfl⟩
    | succ d' =>
      obtain ⟨a, ha, heq⟩ := ih (by simpa using h)
      exact ⟨a, List.mem_cons_of_mem _ ha, heq⟩

theorem argvOf_map_some (l : List String) :
    ∀ rest : List (Option String), argvOf (l.map some ++ rest) = l ++ argvOf rest := by
  induction l with
  | nil => intro rest; simp [argvOf]
  | cons a t ih =>
    intro rest
    show argvOf (some a :: (t.map some ++ rest)) = a :: (t ++ argvOf rest)
    rw [argvOf, ih rest]

theorem set_cons_succ' (a : Option String) (l : List (Option String)) (n : Nat)
    (v : Option String) : (a :: l).set (n + 1) v = a :: l.set n v := rfl

theorem getD_cons_succ' (a : Option String) (l : List (Option String)) (n : Nat) :
    (a :: l).getD (n + 1) none = l.getD n none := rfl

/-- The shifting fold of `remove_args` commutes with an untouched head
cell. -/
theorem foldl_shift_cons (num : Nat) :
    ∀ (ks : List Nat) (a : Option String) (arr : List (Option String)) (idx : Nat),
      ks.foldl (fun t k => t.set (idx + 1 + k) (t.getD (idx + 1 + k + num) none)) (a :: arr) =
        a :: ks.foldl (fun t k => t.set (idx + k) (t.getD (idx + k + num) none)) arr := by
  intro ks
  induction ks with
  | nil => intro a arr idx; rfl
  | cons k ks ih =>
    intro a arr idx
    rw [List.foldl_cons, List.foldl_cons]
    rw [show idx + 1 + k = (idx + k) + 1 from by omega]
    rw [show idx + k + 1 + num = (idx + k + num) + 1 from by omega]
    rw [getD_cons_succ', set_cons_succ']
    exact ih a _ idx

/-- `remove_args` is translation invariant: untouched leading cells pass
through unchanged. -/
theorem remove_args_translate :
    ∀ (A suffix : List (Option String)) (n num : Nat),
      remove_args (A ++ suffix) (A.length + n) A.length num =
        A ++ remove_args suffix n 0 num := by
  intro A
  induction A with
  | nil =>
    intro suffix n num
    simp [remove_args]
  | cons a A ih =>
    intro suffix n num
    unfold remove_args
    rw [show (a :: A).length + n - (a :: A).length = n from by simp]
    show ((List.range n).foldl
        (fun t k => t.set (A.length + 1 + k) (t.getD (A.length + 1 + k + num) none))
        (a :: (A ++ suffix))).set (A.length + 1 + num) none =
      a :: (A ++ remove_args suffix n 0 num)
    rw [foldl_shift_cons]
    rw [show A.length + 1 + num = (A.length + num) + 1 from by omega]
    rw [set_cons_succ']
    have ih' := ih suffix n num
    unfold remove_args at ih'
    rw [show A.length + n - A.length = n from by omega] at ih'
    rw [ih']
    rfl

/-- Effect of `remove_args` when consuming the two redirection tokens at
position `A.length` with at most two tokens following: the trailing
tokens shift in and a terminator sits right after them. -/
theorem remove_args_spec (A : List (Option String)) (op f : String)
    (post : List (Option String)) (hpost : post.length ≤ 2) :
    remove_args (A ++ (some op :: some f :: (post ++ [none])))
      (A.length + (2 + post.length)) A.length 2 =
    A ++ (post ++ [none, none, none]) := by
  rw [remove_args_translate A (some op :: some f :: (post ++ [none])) (2 + post.length) 2]
  match post, hpost with
  | [], _ => rfl
  | [x], _ => rfl
  | [x, y], _ => rfl

theorem scanRedirs_exit (fuel : Nat) (arr : List (Option String)) (argc i : Nat)
    (acc : List RedirAct) (h : ¬(i + 1 < argc)) :
    scanRedirs fuel arr argc i acc = some (arr, argc, acc) := by
  rw [scanRedirs.eq_def]
  simp only []
  rw [if_neg h]

theorem scanRedirs_skip (fuel : Nat) (arr : List (Option String)) (argc i : Nat)
    (acc : List RedirAct) (a : String) (hlt : i + 1 < argc)
    (ha : arr.getD i none = some a) (h1 : a ≠ "<") (h2 : a ≠ ">") :
    scanRedirs (fuel + 1) arr argc i acc = scanRedirs fuel arr argc (i + 1) acc := by
  show scanRedirs (Nat.succ fuel) arr argc i acc = _
  rw [scanRedirs.eq_def]
  simp only []
  rw [if_pos hlt]
  simp only [ha]
  rw [if_neg h1, if_neg h2]

theorem scanRedirs_hit (fuel : Nat) (arr : List (Option String)) (argc i : Nat)
    (acc : List RedirAct) (f : String) (hlt : i + 1 < argc)
    (hf : arr.getD (i + 1) none = some f) :
    (arr.getD i none = some "<" →
      scanRedirs (fuel + 1) arr argc i acc =
        scanRedirs fuel (remove_args arr argc i 2) (argc - 2) (i + 1)
          (acc ++ [⟨f, [OFlag.O_RDONLY], [0]⟩])) ∧
    (arr.getD i none = some ">" →
      scanRedirs (fuel + 1) arr argc i acc =
        scanRedirs fuel (remove_args arr argc i 2) (argc - 2) (i + 1)
          (acc ++ [⟨f, [OFlag.O_RDWR, OFlag.O_CREAT], [1, 2]⟩])) := by
  constructor
  · intro ha
    show scanRedirs (Nat.succ fuel) arr argc i acc = _
    rw [scanRedirs.eq_def]
    simp only []
    rw [if_pos hlt]
    simp only [ha, hf]
    rw [if_pos trivial]
  · intro ha
    show scanRedirs (Nat.succ fuel) arr argc i acc = _
    rw [scanRedirs.eq_def]
    simp only []
    rw [if_pos hlt]
    simp only [ha, hf]
    rw [if_neg (by decide), if_pos trivial]

theorem scanRedirs_skip_many (arr : List (Option String)) (argc : Nat)
    (acc : List RedirAct) :
    ∀ (k fuel i : Nat),
      (∀ d, d < k → ∃ a, arr.getD (i + d) none = some a ∧ a ≠ "<" ∧ a ≠ ">") →
      i + k < argc →
      scanRedirs (fuel + k) arr argc i acc = scanRedirs fuel arr argc (i + k) acc := by
  intro k
  induction k with
  | zero => intro fuel i _ _; rfl
  | succ k ih =>
    intro fuel i hcells hlt
    obtain ⟨a, ha, h1, h2⟩ := hcells 0 (by omega)
    rw [show fuel + (k + 1) = (fuel + k) + 1 from by omega]
    rw [scanRedirs_skip (fuel + k) arr argc i acc a (by omega) ha h1 h2]
    rw [ih fuel (i + 1) (fun d hd => by
      obtain ⟨b, hb, hb1, hb2⟩ := hcells (d + 1) (by omega)
      exact ⟨b, by rw [show i + 1 + d = i + (d + 1) from by omega]; exact hb, hb1, hb2⟩)
      (by omega)]
    rw [show i + 1 + k = i + (k + 1) from by omega]

theorem getD_append_skip (A l : List (Option String)) (k : Nat) :
    (A ++ l).getD (A.length + k) none = l.getD k none := by
  rw [List.getD_append_right _ _ _ _ (by omega)]
  congr 1
  omega

/-- Shared computation for both redirection operators: scanning
`pre ++ op :: f :: post` with op-free `pre` and at most two trailing
tokens performs exactly one redirection (the action for `op`), consumes
the two tokens, and leaves `pre ++ post` shifted left before a
terminator. -/
theorem scan_redirect_core (pre post : List String) (op f : String) (act : RedirAct)
    (hpre : ∀ a ∈ pre, a ≠ "<" ∧ a ≠ ">") (hpost : post.length ≤ 2)
    (hcase : (op = "<" ∧ act = ⟨f, [OFlag.O_RDONLY], [0]⟩) ∨
      (op = ">" ∧ act = ⟨f, [OFlag.O_RDWR, OFlag.O_CREAT], [1, 2]⟩)) :
    childRedirect (pre ++ op :: f :: post) =
      some (pre.map some ++ (post.map some ++ [none, none, none]),
        pre.length + post.length, [act]) := by
  unfold childRedirect toArr
  have hmap : (pre ++ op :: f :: post).map some ++ [none] =
      pre.map some ++ (some op :: some f :: (post.map some ++ [none])) := by
    simp
  have hlen : (pre ++ op :: f :: post).length = pre.length + (2 + post.length) := by
    simp
    omega
  rw [hmap, hlen]
  rw [show pre.length + (2 + post.length) + 1 = (post.length + 3) + pre.length from by omega]
  rw [scanRedirs_skip_many _ _ _ pre.length (post.length + 3) 0
    (fun d hd => by
      obtain ⟨a, hamem, haeq⟩ :=
        getD_map_some (some op :: some f :: (post.map some ++ [none])) hd
      exact ⟨a, by rw [show (0 : Nat) + d = d from by omega]; exact haeq,
        (hpre a hamem).1, (hpre a hamem).2⟩)
    (by omega)]
  rw [show (0 : Nat) + pre.length = pre.length from by omega]
  have hop : (pre.map some ++ (some op :: some f :: (post.map some ++ [none]))).getD
      pre.length none = some op := by
    rw [show pre.length = (pre.map some).length + 0 from by simp]
    rw [getD_append_skip]
    rfl
  have hfi : (pre.map some ++ (some op :: some f :: (post.map some ++ [none]))).getD
      (pre.length + 1) none = some f := by
    rw [show pre.length + 1 = (pre.map some).length + 1 from by simp]
    rw [getD_append_skip]
    rfl
  have hremove : remove_args (pre.map some ++ (some op :: some f :: (post.map some ++ [none])))
      (pre.length + (2 + post.length)) pre.length 2 =
      pre.map some ++ (post.map some ++ [none, none, none]) := by
    rw [show pre.length + (2 + post.length) =
      (pre.map some).length + (2 + (post.map some).length) from by simp]
    rw [show pre.length = (pre.map some).length from by simp]
    exact remove_args_spec (pre.map some) op f (post.map some) (by simpa using hpost)
  have hargc2 : pre.length + (2 + post.length) - 2 = pre.length + post.length := by omega
  have hlt : pre.length + 1 < pre.length + (2 + post.length) := by omega
  rw [show post.length + 3 = (post.length + 2) + 1 from by omega]
  rcases hcase with ⟨hopeq, hacteq⟩ | ⟨hopeq, hacteq⟩
  · subst hopeq
    subst hacteq
    rw [(scanRedirs_hit (post.length + 2) _ _ pre.length [] f hlt hfi).1 hop]
    rw [hremove, hargc2]
    rw [scanRedirs_exit _ _ _ _ _ (by omega)]
    rw [List.nil_append]
  · subst hopeq
    subst hacteq
    rw [(scanRedirs_hit (post.length + 2) _ _ pre.length [] f hlt hfi).2 hop]
    rw [hremove, hargc2]
    rw [scanRedirs_exit _ _ _ _ _ (by omega)]
    rw [List.nil_append]

/-- C4 (amended): for every command in which a single redirection
operator and its filename are followed by at most two argument tokens,
`> file` opens the file for read/write, creating it if absent but NOT
truncating existing content (no `O_TRUNC`), and duplicates the
descriptor onto both standard output and standard error; `< file` opens
the file read-only and duplicates it onto standard input; the
redirection consumes its operator and filename token and the remaining
argument tokens are compacted in order (with three or more following
tokens the planted terminator destroys the third, so the compaction
clause holds only in this bounded form). -/
theorem C4_redirection_behavior (pre post : List String) (f : String)
    (hpre : ∀ a ∈ pre, a ≠ "<" ∧ a ≠ ">") (hpost : post.length ≤ 2) :
    (childRedirect (pre ++ ">" :: f :: post) =
      some (pre.map some ++ (post.map some ++ [none, none, none]),
        pre.length + post.length,
        [⟨f, [OFlag.O_RDWR, OFlag.O_CREAT], [1, 2]⟩]) ∧
      OFlag.O_TRUNC ∉ [OFlag.O_RDWR, OFlag.O_CREAT]) ∧
    (childRedirect (pre ++ "<" :: f :: post) =
      some (pre.map some ++ (post.map some ++ [none, none, none]),
        pre.length + post.length, [⟨f, [OFlag.O_RDONLY], [0]⟩])) ∧
    argvOf (pre.map some ++ (post.map some ++ [none, none, none])) = pre ++ post := by
  have hargv : argvOf (pre.map some ++ (post.map some ++ [none, none, none])) =
      pre ++ post := by
    rw [argvOf_map_some, argvOf_map_some]
    simp [argvOf]
  exact ⟨⟨scan_redirect_core pre post ">" f _ hpre hpost (Or.inr ⟨rfl, rfl⟩),
      by decide⟩,
    scan_redirect_core pre post "<" f _ hpre hpost (Or.inl ⟨rfl, rfl⟩), hargv⟩

/-- Witness for the amended C4: `cat > out.txt x` and `cat < out.txt x`. -/
theorem C4_redirection_behavior_witness :
    ((∀ a ∈ ["cat"], a ≠ "<" ∧ a ≠ ">") ∧ (["x"] : List String).length ≤ 2) ∧
    (childRedirect (["cat"] ++ ">" :: "out.txt" :: ["x"]) =
      some (["cat"].map some ++ (["x"].map some ++ [none, none, none]),
        (["cat"] : List String).length + (["x"] : List String).length,
        [⟨"out.txt", [OFlag.O_RDWR, OFlag.O_CREAT], [1, 2]⟩])) ∧
    argvOf (["cat"].map some ++ (["x"].map some ++ [none, none, none])) =
      ["cat"] ++ ["x"] :=
  ⟨⟨by decide, by decide⟩,
    (C4_redirection_behavior ["cat"] ["x"] "out.txt" (by decide) (by decide)).1.1,
    (C4_redirection_behavior ["cat"] ["x"] "out.txt" (by decide) (by decide)).2.2⟩

/-! ### C9: the foreground waiter -/

/-- Position of `waitfg`'s control flow: about to test the loop
condition (`pid == fgpid(jobs)`, with `SIGCHLD` blocked), inside
`sigsuspend`, or returned. -/
inductive WPhase where
  | check
  | suspended
  | done
deriving DecidableEq, Repr

/-- State of the `waitfg` protocol: the job table, the loop position and
the queued (blocked, not yet delivered) child-state notifications.
During `check` the `sigprocmask(SIG_BLOCK, {SIGCHLD})` mask is in force,
so arriving notifications only queue and the table cannot change under
the test; `sigsuspend` atomically opens the mask, lets the handler reap
everything available, and returns with the mask closed again. -/
structure WaitSt where
  tbl : List Job
  phase : WPhase
  pending : List Int
deriving DecidableEq, Repr

/-- Events: an internal step of `waitfg` (`tick`), or the asynchronous
arrival of a child-state notification for pid `p`. -/
inductive WEv where
  | tick
  | arrive (pid : Int)

/-- One step of the `waitfg` protocol for foreground pid `fgp`. -/
def waitStep (fgp : Int) (s : WaitSt) (e : WEv) : WaitSt :=
  match e with
  | WEv.arrive p =>
    match s.phase with
    | WPhase.check => ⟨s.tbl, WPhase.check, s.pending ++ [p]⟩
    | WPhase.suspended => ⟨sigchld_reap s.tbl (s.pending ++ [p]), WPhase.check, []⟩
    | WPhase.done => s
  | WEv.tick =>
    match s.phase with
    | WPhase.check =>
      if fgpid s.tbl == fgp then ⟨s.tbl, WPhase.suspended, s.pending⟩
      else ⟨s.tbl, WPhase.done, s.pending⟩
    | WPhase.suspended =>
      match s.pending with
      | [] => s
      | ps => ⟨sigchld_reap s.tbl ps, WPhase.check, []⟩
    | WPhase.done => s

/-- Runs of `waitfg fgp` from an entry state (arbitrary initial table
and already-pending notifications). -/
inductive WReach (fgp : Int) (tbl0 : List Job) (p0 : List Int) : WaitSt → Prop where
  | init : WReach fgp tbl0 p0 ⟨tbl0, WPhase.check, p0⟩
  | step : ∀ {s : WaitSt} (e : WEv), WReach fgp tbl0 p0 s →
      WReach fgp tbl0 p0 (waitStep fgp s e)

theorem waitInv (fgp : Int) (tbl0 : List Job) (p0 : List Int) :
    ∀ s : WaitSt, WReach fgp tbl0 p0 s →
      (s.phase = WPhase.done → fgpid s.tbl ≠ fgp) ∧
      (s.phase = WPhase.suspended → s.pending = [] → fgpid s.tbl = fgp) := by
  intro s h
  induction h with
  | init =>
    refine ⟨?_, ?_⟩
    · intro hp; cases hp
    · intro hp; cases hp
  | step e hprev ih =>
    obtain ⟨ih1, ih2⟩ := ih
    rename_i s
    obtain ⟨t, ph, pd⟩ := s
    cases e with
    | arrive p =>
      cases ph with
      | check =>
        refine ⟨?_, ?_⟩
        · intro hp; cases hp
        · intro hp; cases hp
      | suspended =>
        refine ⟨?_, ?_⟩
        · intro hp; cases hp
        · intro hp; cases hp
      | done => exact ⟨ih1, ih2⟩
    | tick =>
      cases ph with
      | check =>
        by_cases hc : fgpid t == fgp
        · have hstep : waitStep fgp ⟨t, WPhase.check, pd⟩ WEv.tick =
              ⟨t, WPhase.suspended, pd⟩ := by
            show (if fgpid t == fgp then (⟨t, WPhase.suspended, pd⟩ : WaitSt)
              else ⟨t, WPhase.done, pd⟩) = _
            rw [if_pos hc]
          rw [hstep]
          refine ⟨?_, ?_⟩
          · intro hp; cases hp
          · intro _ _
            simpa using hc
        · have hc' : (fgpid t == fgp) = false := by
            revert hc; cases fgpid t == fgp <;> simp
          have hstep : waitStep fgp ⟨t, WPhase.check, pd⟩ WEv.tick =
              ⟨t, WPhase.done, pd⟩ := by
            show (if fgpid t == fgp then (⟨t, WPhase.suspended, pd⟩ : WaitSt)
              else ⟨t, WPhase.done, pd⟩) = _
            rw [hc']
            rw [if_neg (by simp)]
          rw [hstep]
          refine ⟨?_, ?_⟩
          · intro _
            show fgpid t ≠ fgp
            simpa using hc'
          · intro hp; cases hp
      | suspended =>
        cases pd with
        | nil => exact ⟨ih1, ih2⟩
        | cons q qd =>
          refine ⟨?_, ?_⟩
          · intro hp; cases hp
          · intro hp; cases hp
      | done => exact ⟨ih1, ih2⟩

/-- C9: `wait_for_foreground(fgp)` returns exactly when `fgp` is no
longer the table's foreground pid, and its check-then-block step is
atomic with respect to the child-state notifications that wake it:
(1) in the `done` phase the foreground pid differs from `fgp`;
(2) the waiter is never asleep with nothing pending unless `fgp` really
is still the foreground pid (no lost wakeup);
(3) from the check, if `fgp` is no longer foreground the very next step
returns (blocks only while the precondition holds);
(4) asleep with nothing pending, an internal step changes nothing — the
waiter makes no progress without a notification (no busy polling). -/
theorem C9_waitfg_blocks_exactly (fgp : Int) (tbl0 : List Job) (p0 : List Int)
    (s : WaitSt) (h : WReach fgp tbl0 p0 s) :
    (s.phase = WPhase.done → fgpid s.tbl ≠ fgp) ∧
    (s.phase = WPhase.suspended → s.pending = [] → fgpid s.tbl = fgp) ∧
    (s.phase = WPhase.check → fgpid s.tbl ≠ fgp →
      waitStep fgp s WEv.tick = ⟨s.tbl, WPhase.done, s.pending⟩) ∧
    (s.phase = WPhase.suspended → s.pending = [] → waitStep fgp s WEv.tick = s) := by
  obtain ⟨h1, h2⟩ := waitInv fgp tbl0 p0 s h
  refine ⟨h1, h2, ?_, ?_⟩
  · intro hp hne
    obtain ⟨t, ph, pd⟩ := s
    cases hp
    show (if fgpid t == fgp then (⟨t, WPhase.suspended, pd⟩ : WaitSt)
      else ⟨t, WPhase.done, pd⟩) = ⟨t, WPhase.done, pd⟩
    rw [if_neg (by simpa using hne)]
  · intro hp hpd
    obtain ⟨t, ph, pd⟩ := s
    cases hp
    cases hpd
    rfl

/-- Witness for C9: a run on the one-job table (fg pid 7): check, then
suspend, then the notification for pid 7 arrives and is consumed, and
the recheck returns. -/
theorem C9_waitfg_blocks_exactly_witness :
    WReach 7 tblC7 [] (waitStep 7 (waitStep 7 (waitStep 7 ⟨tblC7, WPhase.check, []⟩
        WEv.tick) (WEv.arrive 7)) WEv.tick) ∧
    ((waitStep 7 (waitStep 7 (waitStep 7 ⟨tblC7, WPhase.check, []⟩
        WEv.tick) (WEv.arrive 7)) WEv.tick).phase = WPhase.done →
      fgpid (waitStep 7 (waitStep 7 (waitStep 7 ⟨tblC7, WPhase.check, []⟩
        WEv.tick) (WEv.arrive 7)) WEv.tick).tbl ≠ 7) :=
  ⟨WReach.step _ (WReach.step _ (WReach.step _ WReach.init)),
    (C9_waitfg_blocks_exactly 7 tblC7 [] _
      (WReach.step _ (WReach.step _ (WReach.step _ WReach.init)))).1⟩

end Tsh
